import Mathlib

/-!
Verification development for the tornado-rest-framework form/validator/filter
subsystem: declarative field collection (forms.py, DeclarativeFieldsMetaclass),
the multi-phase clean pipeline (BaseForm.full_clean and its stages), the
uniqueness validators (validators.py) and the search/ordering filter backends
(backends.py).  Python dictionaries are embedded as association lists with
dict-assignment semantics (existing keys keep their position, new keys are
appended); exceptions become `Except`; the external ORM queryset layer is
modelled from the spec's capability contract (filter/exclude/exists/noop).
-/

set_option autoImplicit false

namespace TRF

instance exceptDecEq {ε α : Type} [DecidableEq ε] [DecidableEq α] : DecidableEq (Except ε α)
  | .ok a, .ok b =>
    if h : a = b then .isTrue (by rw [h]) else .isFalse (by simp [h])
  | .ok _, .error _ => .isFalse (by simp)
  | .error _, .ok _ => .isFalse (by simp)
  | .error e, .error e' =>
    if h : e = e' then .isTrue (by rw [h]) else .isFalse (by simp [h])

/-! ## Association-list infrastructure (embedding of Python dict / OrderedDict) -/

/-- Membership test on a list, mirroring Python's `in`. -/
def memB {α : Type} [DecidableEq α] (l : List α) (x : α) : Bool :=
  l.any (fun y => decide (y = x))

/-- The keys of an association list. -/
def keysOf {α : Type} (l : List (String × α)) : List String :=
  l.map (fun p => p.1)

/-- `k in d` for an association list viewed as a dict. -/
def hasKey {α : Type} (l : List (String × α)) (k : String) : Bool :=
  l.any (fun p => decide (p.1 = k))

/-- First-match lookup, mirroring Python dict lookup (keys are unique in a
real dict, so first match is the match). -/
def alookup {α : Type} : List (String × α) → String → Option α
  | [], _ => none
  | p :: t, k => if p.1 = k then some p.2 else alookup t k

/-- Python dict assignment `d[k] = v`: replace in place if the key exists,
otherwise append at the end.  This is the ordering behaviour of `dict` and
`OrderedDict` item assignment. -/
def assocSet {α : Type} (l : List (String × α)) (k : String) (v : α) : List (String × α) :=
  if hasKey l k then l.map (fun p => if p.1 = k then (k, v) else p)
  else l ++ [(k, v)]

/-- Python `del d[k]` generalised to remove every pair with the given key. -/
def eraseKey {α : Type} (l : List (String × α)) (k : String) : List (String × α) :=
  l.filter (fun p => !(decide (p.1 = k)))

/-! ## C1: DeclarativeFieldsMetaclass (forms.py lines 18-44)

A field declaration is embedded as its `creation_counter` (a `Nat`, which also
serves as the identity of the field object).  A class on the MRO chain is
embedded as the list of its own `Field`-valued attributes in class-body order
(`attrs.items()`) together with the list of its attributes explicitly set to
`None` (the shadow-delete sentinel).  The chain is listed most-base first,
i.e. in the order of `reversed(new_class.__mro__)`. -/

structure ClassInfo where
  ownFields : List (String × Nat)
  nones : List String
deriving DecidableEq, Repr

/-- Stable insertion into a list sorted by creation counter (the element being
inserted precedes the already-inserted elements with an equal counter, which
matches the stability of Python's `list.sort`). -/
def insertByCounter (x : String × Nat) : List (String × Nat) → List (String × Nat)
  | [] => [x]
  | y :: t => if x.2 ≤ y.2 then x :: y :: t else y :: insertByCounter x t

/-- Stable sort by creation counter: `current_fields.sort(key=lambda x:
x[1].creation_counter)` (forms.py line 24). -/
def sortByCounter : List (String × Nat) → List (String × Nat)
  | [] => []
  | x :: t => insertByCounter x (sortByCounter t)

/-- A class's `declared_fields`: its own declared fields sorted by creation
counter (forms.py lines 19-25). -/
def declaredFields (c : ClassInfo) : List (String × Nat) :=
  sortByCounter c.ownFields

/-- `declared_fields.update(base.declared_fields)` (forms.py line 34):
fold dict assignment over the entries. -/
def odUpdate (acc : List (String × Nat)) (entries : List (String × Nat)) : List (String × Nat) :=
  entries.foldl (fun a p => assocSet a p.1 p.2) acc

/-- One step of the MRO walk (forms.py lines 31-39): merge the base's declared
fields, then pop every name the base explicitly sets to `None`. -/
def classStep (acc : List (String × Nat)) (c : ClassInfo) : List (String × Nat) :=
  (odUpdate acc (declaredFields c)).filter (fun p => !(memB c.nones p.1))

/-- The merged field registry `base_fields` (forms.py lines 29-41): walk the
chain from most-base to most-derived, merging and shadow-deleting. -/
def base_fields (chain : List ClassInfo) : List (String × Nat) :=
  chain.foldl classStep []

/-- All shadow-delete names occurring anywhere in a chain. -/
def allNones : List ClassInfo → List String
  | [] => []
  | c :: rest => c.nones ++ allNones rest

/-- The registry a chain's description in the spec predicts when no field name
is declared by two classes: each class contributes its own fields in creation
counter order, layered base-to-derived, with a field dropped when a
more-derived class shadow-deletes its name. -/
def mergeSpec : List ClassInfo → List (String × Nat)
  | [] => []
  | c :: rest =>
    (declaredFields c).filter (fun p => !(memB (allNones rest) p.1)) ++ mergeSpec rest

/-- What a single class says about a name: shadow-delete (`some none`),
declaration (`some (some counter)`), or nothing (`none`). -/
def classMention (c : ClassInfo) (k : String) : Option (Option Nat) :=
  if memB c.nones k then some none
  else
    match alookup c.ownFields k with
    | some v => some (some v)
    | none => none

/-- The most-derived class of the chain that mentions a name decides its fate;
`lastMention` returns that class's verdict. -/
def lastMention : List ClassInfo → String → Option (Option Nat)
  | [], _ => none
  | c :: rest, k =>
    match lastMention rest k with
    | some r => some r
    | none => classMention c k

/-- Last-occurrence lookup in an entry list (the entry a left-to-right dict
update leaves in force for a key). -/
def entLast : List (String × Nat) → String → Option Nat
  | [], _ => none
  | p :: t, k =>
    match entLast t k with
    | some v => some v
    | none => if p.1 = k then some p.2 else none

/-- All field names declared anywhere in a chain, base first. -/
def allKeys : List ClassInfo → List String
  | [] => []
  | c :: rest => keysOf c.ownFields ++ allKeys rest

/-- A class is well-formed when its declared field names are distinct (they
are keys of the Python class `__dict__`) and no name is simultaneously a field
and a `None`-valued attribute (an attribute has a single value). -/
def wfClass (c : ClassInfo) : Prop :=
  (keysOf c.ownFields).Nodup ∧ ∀ k ∈ keysOf c.ownFields, ¬ k ∈ c.nones

def wfChain (chain : List ClassInfo) : Prop :=
  ∀ c ∈ chain, wfClass c

/-- No field name is declared by two classes of the chain. -/
def distinctKeys (chain : List ClassInfo) : Prop :=
  (allKeys chain).Nodup

instance wfClassDec (c : ClassInfo) : Decidable (wfClass c) := by
  unfold wfClass
  infer_instance

instance wfChainDec (chain : List ClassInfo) : Decidable (wfChain chain) := by
  unfold wfChain
  infer_instance

instance distinctKeysDec (chain : List ClassInfo) : Decidable (distinctKeys chain) := by
  unfold distinctKeys
  infer_instance

/-! ## C2-C4: BaseForm clean pipeline (forms.py lines 47-262)

`V` is the type of field values, `E` the type of atomic error messages.  The
exceptions module is not part of the sources, so `ValidationError` is
modelled from the spec: an error either carries an ordered list of entries
(`error_list`) or a per-field mapping of such lists (`error_dict`), and the
accumulator maps a field name or the non-field sentinel to an ordered list. -/

/-- Modelled from the spec: the reserved sentinel key under which whole-form
errors are accumulated (`settings.NON_FIELD_ERRORS`, not under src/). -/
def NON_FIELD_ERRORS : String := "__all__"

/-- Modelled from the spec: a `ValidationError` payload is either an ordered
error list or a per-field dict of error lists (`rest_framework.core.exceptions`
is not under src/). -/
inductive VError (E : Type) where
  | elist (l : List E)
  | edict (d : List (String × List E))
deriving DecidableEq

/-- One declared field bound to a form, as seen by `_clean_fields`.  The
`Field` class itself is not under src/; its contract is modelled from the
spec: a disabled flag, a has-changed test against the initial data, and a
clean function from the extracted raw value (absent = `None`) to either a
converted value or a field-scoped validation error list. -/
structure FieldSpec (V E : Type) where
  disabled : Bool
  has_changed : Bool
  clean : Option V → Except (List E) V

/-- A bound form: the field registry, the per-field extracted raw data
(`field.value_from_datadict(self.data, self.files)` is modelled from the spec
as a name-indexed extraction), the binding flags, the optional `clean_<name>`
hooks, the whole-form `clean` hook and the `Meta.validators` list.  Hooks and
validators read the current cleaned data. -/
structure FormM (V E : Type) where
  fields : List (String × FieldSpec V E)
  data : String → Option V
  is_bound : Bool
  empty_permitted : Bool
  hooks : String → Option (List (String × V) → Except (List E) V)
  cleanHook : List (String × V) → Except (List E) (Option (List (String × V)))
  validators : List (List (String × V) → Option (List E))

/-- The mutable state of a form instance: `self._errors` and
`self._cleaned_data`, both `None` before the first `full_clean`. -/
structure FormState (V E : Type) where
  errors : Option (List (String × List E))
  cleaned : Option (List (String × V))
deriving DecidableEq

def initState {V E : Type} : FormState V E := ⟨none, none⟩

/-- Appending an error list under a key of the accumulator (forms.py lines
134-140: create an empty `ErrorList` for a fresh key, then `extend`). -/
def appendErrs {E : Type} (errs : List (String × List E)) (k : String) (el : List E) :
    List (String × List E) :=
  if hasKey errs k then errs.map (fun p => if p.1 = k then (p.1, p.2 ++ el) else p)
  else errs ++ [(k, el)]

/-- `add_error(None, e)` (forms.py lines 119-142) as reached from
`full_clean`: a list-kind error goes under the non-field sentinel, a dict-kind
error is merged per field; each affected field's entry is deleted from
`cleaned_data`.  The `TypeError` branch (field given together with a dict
error) and the `ValueError` branch (unknown field name) are not modelled: all
dict errors raised inside `full_clean`'s pipeline are keyed by declared field
names. -/
def addError {V E : Type} (st : FormState V E) (e : VError E) : FormState V E :=
  let d := match e with
    | .elist l => [(NON_FIELD_ERRORS, l)]
    | .edict d => d
  d.foldl
    (fun st p =>
      ⟨st.errors.map (fun es => appendErrs es p.1 p.2),
       st.cleaned.map (fun cd => eraseKey cd p.1)⟩)
    st

/-- The loop body of `_clean_fields` (forms.py lines 174-201): skip disabled
fields; clean the extracted value; on success store it in `cleaned_data` and
run the `clean_<name>` hook if present (its result overwrites the stored
value, its failure is recorded like a clean failure); on failure record the
field-scoped error and continue with the next field. -/
def cleanFieldsGo {V E : Type} (f : FormM V E) :
    List (String × FieldSpec V E) → List (String × V) → List (String × List E) →
    List (String × V) × List (String × List E)
  | [], cd, errs => (cd, errs)
  | (n, fs) :: rest, cd, errs =>
    if fs.disabled then cleanFieldsGo f rest cd errs
    else
      match fs.clean (f.data n) with
      | .error el => cleanFieldsGo f rest cd (errs ++ [(n, el)])
      | .ok v =>
        match f.hooks n with
        | none => cleanFieldsGo f rest (assocSet cd n v) errs
        | some h =>
          match h (assocSet cd n v) with
          | .ok v2 => cleanFieldsGo f rest (assocSet (assocSet cd n v) n v2) errs
          | .error el => cleanFieldsGo f rest (assocSet cd n v) (errs ++ [(n, el)])

/-- `_clean_fields` run over the whole registry: the populated cleaned data
and the collected per-field errors (`field_errors`). -/
def cleanFieldsFold {V E : Type} (f : FormM V E) :
    List (String × V) × List (String × List E) :=
  cleanFieldsGo f f.fields [] []

/-- The recorded outcome of one field's clean attempt. -/
inductive FOutcome (V E : Type) where
  | okv (v : V)
  | fail (el : List E)
deriving DecidableEq

/-- Instrumented `_clean_fields` loop recording, per attempted (non-disabled)
field, its outcome. -/
def traceGo {V E : Type} (f : FormM V E) :
    List (String × FieldSpec V E) → List (String × V) → List (String × FOutcome V E) →
    List (String × V) × List (String × FOutcome V E)
  | [], cd, tr => (cd, tr)
  | (n, fs) :: rest, cd, tr =>
    if fs.disabled then traceGo f rest cd tr
    else
      match fs.clean (f.data n) with
      | .error el => traceGo f rest cd (tr ++ [(n, .fail el)])
      | .ok v =>
        match f.hooks n with
        | none => traceGo f rest (assocSet cd n v) (tr ++ [(n, .okv v)])
        | some h =>
          match h (assocSet cd n v) with
          | .ok v2 => traceGo f rest (assocSet (assocSet cd n v) n v2) (tr ++ [(n, .okv v2)])
          | .error el => traceGo f rest (assocSet cd n v) (tr ++ [(n, .fail el)])

/-- The trace of clean attempts for a form. -/
def cleanFieldsTrace {V E : Type} (f : FormM V E) :
    List (String × V) × List (String × FOutcome V E) :=
  traceGo f f.fields [] []

/-- Projection of a trace to the recorded failures, in order. -/
def projErrs {V E : Type} (tr : List (String × FOutcome V E)) : List (String × List E) :=
  tr.filterMap (fun p =>
    match p.2 with
    | .fail el => some (p.1, el)
    | .okv _ => none)

/-- `changed_data`/`has_changed` (forms.py lines 238-252): some field reports
a change between its initial and its submitted value. -/
def hasChangedM {V E : Type} (f : FormM V E) : Bool :=
  f.fields.any (fun nf => nf.2.has_changed)

/-- `_clean_form` (forms.py lines 203-210): run the whole-form `clean` hook;
its failure is added as a non-field error, its non-`None` result replaces
`cleaned_data` wholesale. -/
def formStage {V E : Type} (f : FormM V E) (cd : List (String × V)) (st : FormState V E) :
    FormState V E :=
  let st := { st with cleaned := some cd }
  match f.cleanHook cd with
  | .error el => addError st (.elist el)
  | .ok none => st
  | .ok (some cd2) => { st with cleaned := some cd2 }

/-- `_clean_validators` (forms.py lines 222-227) as observed through
`full_clean`'s `except ValidationError` (lines 167-172): the validators are
called in order on the current cleaned data; the first failure propagates and
is added as an error, the loop not resuming afterwards. -/
def validatorStage {V E : Type} (f : FormM V E) (st : FormState V E) : FormState V E :=
  match f.validators.findSome? (fun v => v (st.cleaned.getD [])) with
  | some el => addError st (.elist el)
  | none => st

/-- The `try` block of `full_clean` (forms.py lines 167-172): `_clean_fields`
raising aborts the remaining stages and its aggregate dict error is added;
otherwise `_clean_form` and `_clean_validators` run. -/
def cleanStages {V E : Type} (f : FormM V E) (st : FormState V E) : FormState V E :=
  match cleanFieldsFold f with
  | (cd, []) => validatorStage f (formStage f cd st)
  | (cd, e :: es) => addError { st with cleaned := some cd } (.edict (e :: es))

/-- `full_clean` (forms.py lines 153-172): reset the accumulator; stop if
unbound; initialise `cleaned_data`; short-circuit when empty submissions are
permitted and nothing changed; otherwise run the three stages. -/
def fullClean {V E : Type} (f : FormM V E) (st : FormState V E) : FormState V E :=
  let st := { st with errors := some [] }
  if !f.is_bound then st
  else
    let st := { st with cleaned := some [] }
    if f.empty_permitted && !hasChangedM f then st
    else cleanStages f st

/-! ### C4: lazy, cached property access -/

/-- Which property is being read. -/
inductive Access where
  | errs
  | cdata
deriving DecidableEq

/-- What a property access returns: the error accumulator or the cleaned
data. -/
def AccOut (V E : Type) : Type :=
  List (String × List E) ⊕ Option (List (String × V))

/-- One property access (forms.py lines 96-110): run `full_clean` only when
the backing attribute is still `None`; report whether it ran and what the
property returned. -/
def doAccess {V E : Type} (f : FormM V E) (st : FormState V E) :
    Access → FormState V E × Bool × AccOut V E
  | .errs =>
    if st.errors.isNone then
      let st' := fullClean f st
      (st', true, Sum.inl (st'.errors.getD []))
    else (st, false, Sum.inl (st.errors.getD []))
  | .cdata =>
    if st.cleaned.isNone then
      let st' := fullClean f st
      (st', true, Sum.inr st'.cleaned)
    else (st, false, Sum.inr st.cleaned)

/-- Run a sequence of property accesses, counting how many times `full_clean`
executes and collecting the returned values. -/
def runAccesses {V E : Type} (f : FormM V E) :
    List Access → FormState V E → FormState V E × Nat × List (AccOut V E)
  | [], st => (st, 0, [])
  | a :: rest, st =>
    match doAccess f st a with
    | (st', ran, out) =>
      match runAccesses f rest st' with
      | (st'', n, outs) => (st'', (if ran then 1 else 0) + n, out :: outs)

/-- The value every access of the given kind returns once the form is
cleaned. -/
def readOut {V E : Type} (st : FormState V E) : Access → AccOut V E
  | .errs => Sum.inl (st.errors.getD [])
  | .cdata => Sum.inr st.cleaned

/-! ### Concrete forms used to evaluate the pipeline -/

/-- A bound two-field form whose fields both reject their input. -/
def exFormFields : FormM Nat String :=
  { fields :=
      [("a", ⟨false, false, fun _ => .error ["badA"]⟩),
       ("b", ⟨false, false, fun ov =>
          match ov with
          | some v => .ok v
          | none => .error ["reqB"]⟩)],
    data := fun _ => none,
    is_bound := true,
    empty_permitted := false,
    hooks := fun _ => none,
    cleanHook := fun cd => .ok (some cd),
    validators := [] }

/-- A bound fieldless form with two failing cross-field validators. -/
def exFormValidators : FormM Nat String :=
  { fields := [],
    data := fun _ => none,
    is_bound := true,
    empty_permitted := false,
    hooks := fun _ => none,
    cleanHook := fun cd => .ok (some cd),
    validators := [fun _ => some ["e1"], fun _ => some ["e2"]] }

/-- A bound one-field form that cleans successfully. -/
def exFormOk : FormM Nat String :=
  { fields := [("a", ⟨false, false, fun ov => .ok (ov.getD 7)⟩)],
    data := fun n => if n = "a" then some 4 else none,
    is_bound := true,
    empty_permitted := false,
    hooks := fun _ => none,
    cleanHook := fun cd => .ok (some cd),
    validators := [] }

/-! ## C5-C7, C10: uniqueness validators (validators.py)

The ORM layer (`rest_framework.core.db`) is not under src/.  Modelled from
the spec's capability contract: a queryset is a list of rows; `filter` keeps
the rows matching an exact-match predicate, `exclude` drops them, `exists` is
non-emptiness, and a `noop` queryset matches nothing (the empty list).  A row
is a mapping from field name to a nullable value; `None` is the null
sentinel.  A query-layer call can raise: the Python exception kinds relevant
to `qs_filter`/`qs_exists` are embedded in `PyExn`, the first three being the
kinds those wrappers catch. -/

/-- A nullable column value. -/
def Val : Type := Option Int
deriving instance DecidableEq for Val

/-- Modelled from the spec: a database row, mapping field names to nullable
values (`getattr` on a model instance). -/
structure Row where
  attrs : List (String × Val)
deriving DecidableEq

/-- Attribute access on a row. -/
def getAttr (r : Row) (n : String) : Val :=
  (alookup r.attrs n).getD none

/-- The exception kinds around the query layer.  `qs_filter`/`qs_exists`
catch exactly `TypeError`, `ValueError` and `models.DataError`
(validators.py lines 67-81); any other exception propagates. -/
inductive PyExn where
  | typeError
  | valueError
  | dataError
  | otherError
deriving DecidableEq

/-- Whether `except (TypeError, ValueError, models.DataError)` catches the
exception. -/
def caughtExn : PyExn → Bool
  | .typeError => true
  | .valueError => true
  | .dataError => true
  | .otherError => false

/-- `qs_filter` (validators.py lines 74-81): attempt the queryset filter; a
caught exception yields the no-match (`noop`) queryset, here the empty
list. -/
def qs_filterM (attempt : Except PyExn (List Row)) : Except PyExn (List Row) :=
  match attempt with
  | .ok q => .ok q
  | .error e => if caughtExn e then .ok [] else .error e

/-- `qs_exists` (validators.py lines 67-71): attempt `queryset.exists()`; a
caught exception yields `False`. -/
def qs_existsM (attempt : Except PyExn Bool) : Except PyExn Bool :=
  match attempt with
  | .ok b => .ok b
  | .error e => if caughtExn e then .ok false else .error e

/-- Modelled from the spec: the reference exact-match filter over a queryset
(`queryset.filter(field__exact=value)`). -/
def ormFilterExact (qs : List Row) (fname : String) (value : Val) : List Row :=
  qs.filter (fun r => decide (getAttr r fname = value))

/-- Modelled from the spec: the reference `queryset.exists()` — non-empty
row set, no exception. -/
def ormExists (qs : List Row) : Except PyExn Bool :=
  .ok (!qs.isEmpty)

/-- `exclude_current_instance` (validators.py lines 40-48 and 131-136): when
an existing instance is set, drop the rows whose primary key equals the
instance's. -/
def excludeByPk (inst : Option Row) (pkName : String) (qs : List Row) : List Row :=
  match inst with
  | none => qs
  | some r => qs.filter (fun row => !(decide (getAttr row pkName = getAttr r pkName)))

/-- The uniqueness violation raised by `UniqueValidator.__call__`
(validators.py lines 54-58): code `unique`, referencing the field name. -/
structure UErr where
  code : String
  field_name : String
deriving DecidableEq

/-- `UniqueValidator.__call__` (validators.py lines 50-58) with the outcome
of the two external query calls supplied explicitly: filter the queryset
through `qs_filter`, exclude the current instance, and fail with a `unique`
error when `qs_exists` reports a remaining row. -/
def uniqueCallGen (fname pkName : String) (inst : Option Row)
    (filterAttempt : Except PyExn (List Row))
    (existsAttempt : List Row → Except PyExn Bool) : Except PyExn (Option UErr) :=
  match qs_filterM filterAttempt with
  | .error e => .error e
  | .ok q1 =>
    let q2 := excludeByPk inst pkName q1
    match qs_existsM (existsAttempt q2) with
    | .error e => .error e
    | .ok true => .ok (some ⟨("unique"), fname⟩)
    | .ok false => .ok none

/-- The state of a `UniqueValidator` after `set_context`: its queryset, the
resolved field name, the model's primary-key name, and the instance being
updated (if any). -/
structure UniqueValidatorM where
  queryset : List Row
  field_name : String
  pkName : String
  instance_ : Option Row

/-- `UniqueValidator.__call__` with the reference query semantics. -/
def uniqueValidatorCall (v : UniqueValidatorM) (value : Val) : Except PyExn (Option UErr) :=
  uniqueCallGen v.field_name v.pkName v.instance_
    (.ok (ormFilterExact v.queryset v.field_name value)) ormExists

/-! ### UniqueTogetherValidator (validators.py lines 84-154) -/

/-- The message each missing constrained field maps to
(`UniqueTogetherValidator.missing_message`). -/
def missingMessage : String := "This field is required"

/-- The constrained fields absent from the submitted parameters. -/
def missingFields (fields : List String) (params : List (String × Val)) : List String :=
  fields.filter (fun f => !(hasKey params f))

/-- `enforce_required_fields` (validators.py lines 106-116): skipped when
updating; when creating, each missing constrained field fails with the
required message, collected into one dict error. -/
def enforceRequired (inst : Option Row) (fields : List String)
    (params : List (String × Val)) : Option (List (String × String)) :=
  match inst with
  | some _ => none
  | none =>
    match missingFields fields params with
    | [] => none
    | m => some (m.map (fun f => (f, missingMessage)))

/-- The in-place fill of `filter_queryset` (validators.py lines 119-122):
when updating, each constrained field missing from the submitted parameters
is written into the parameter mapping from the existing instance. -/
def fillFromInstance (inst : Option Row) (fields : List String)
    (params : List (String × Val)) : List (String × Val) :=
  match inst with
  | none => params
  | some r =>
    fields.foldl (fun ps f => if hasKey ps f then ps else ps ++ [(f, getAttr r f)]) params

/-- The filter kwargs of `filter_queryset` (validators.py lines 124-127):
one exact-match condition per constrained field. -/
def constrainedKwargs (fields : List String) (params : List (String × Val)) :
    List (String × Val) :=
  fields.map (fun f => (f, (alookup params f).getD none))

/-- Modelled from the spec: the reference conjunctive exact-match filter
(`queryset.filter(**filter_kwargs)`). -/
def ormFilterAnd (qs : List Row) (kwargs : List (String × Val)) : List Row :=
  qs.filter (fun r => kwargs.all (fun p => decide (getAttr r p.1 = p.2)))

/-- The errors `UniqueTogetherValidator.__call__` can raise. -/
inductive UTErr where
  | required (items : List (String × String))
  | unique (fields : List String)
deriving DecidableEq

/-- `UniqueTogetherValidator.__call__` (validators.py lines 138-147) with the
external query calls supplied explicitly.  Returns the outcome together with
the parameter mapping as left behind by the call (the source mutates the
caller's mapping in place in `filter_queryset`).  The null tie-break: when a
constrained submitted value is null, the `and` short-circuits before
`qs_exists` and no violation is raised. -/
def utCallGen (fields : List String) (pkName : String) (inst : Option Row)
    (params : List (String × Val))
    (filterAttempt : List (String × Val) → Except PyExn (List Row))
    (existsAttempt : List Row → Except PyExn Bool) :
    Except PyExn (Option UTErr) × List (String × Val) :=
  match enforceRequired inst fields params with
  | some items => (.ok (some (.required items)), params)
  | none =>
    let params' := fillFromInstance inst fields params
    match qs_filterM (filterAttempt (constrainedKwargs fields params')) with
    | .error e => (.error e, params')
    | .ok q1 =>
      let q2 := excludeByPk inst pkName q1
      let checked := params'.filterMap (fun p => if memB fields p.1 then some p.2 else none)
      if memB checked none then (.ok none, params')
      else
        match qs_existsM (existsAttempt q2) with
        | .error e => (.error e, params')
        | .ok true => (.ok (some (.unique fields)), params')
        | .ok false => (.ok none, params')

/-- The state of a `UniqueTogetherValidator` after `set_context`. -/
structure UniqueTogetherM where
  queryset : List Row
  fields : List String
  pkName : String
  instance_ : Option Row

/-- `UniqueTogetherValidator.__call__` with the reference query semantics. -/
def uniqueTogetherCall (v : UniqueTogetherM) (params : List (String × Val)) :
    Except PyExn (Option UTErr) × List (String × Val) :=
  utCallGen v.fields v.pkName v.instance_ params
    (fun kw => .ok (ormFilterAnd v.queryset kw)) ormExists

/-! ## C8, C9: filter backends (backends.py)

The queryset here is symbolic: it records its base model's fields, the fields
of every joined model, and the predicates/ordering applied to it.  Modelled
from the spec: `queryset.filter(pred)` conjoins one more predicate group,
`queryset.order_by(*fields)` sets the ordering. -/

/-- A model field as seen by the backends: its name and the identity of the
field descriptor. -/
structure FieldInfo where
  name : String
  fid : Nat
deriving DecidableEq, Repr

/-- The comparison operators used by `SearchFilter.lookup_prefixes`
(`models.OP.LIKE / EQ / ILIKE`). -/
inductive OpM where
  | like
  | eq
  | ilike
deriving DecidableEq, Repr

/-- The four match templates of `SearchFilter`: `'%s%%'`, `'%s'`,
`'%%%s%%'`, `'%%%s'`. -/
inductive Tpl where
  | startsWithT
  | exactT
  | containsT
  | endsWithT
deriving DecidableEq, Repr

/-- Rendering `rhs % search_term`: the template with `%s` replaced by the
term. -/
def renderTpl : Tpl → String → String
  | .startsWithT, t => t ++ ("%")
  | .exactT, t => t
  | .containsT, t => ("%") ++ t ++ ("%")
  | .endsWithT, t => ("%") ++ t

/-- `lookup_prefixes` (backends.py lines 50-55). -/
def prefLookup : Char → Option (OpM × Tpl)
  | '^' => some (.like, .startsWithT)
  | '=' => some (.eq, .exactT)
  | '@' => some (.ilike, .containsT)
  | '$' => some (.like, .endsWithT)
  | _ => none

/-- A filter predicate: a `models.Expression(lhs, op, rhs)` leaf or an OR of
two predicates (`reduce(operator.or_, queries)`). -/
inductive Pred where
  | expr (f : FieldInfo) (op : OpM) (rhs : String)
  | orP (p q : Pred)
deriving DecidableEq, Repr

/-- The symbolic queryset consumed by the backends. -/
structure QSym where
  baseFields : List FieldInfo
  joinModels : List (List FieldInfo)
  applied : List Pred
  orderedBy : Option (List (FieldInfo × Bool))
deriving DecidableEq, Repr

/-- `ImproperlyConfigured`, raised for an unresolvable configured field
name. -/
structure ConfigErr where
  field_name : String
deriving DecidableEq, Repr

/-- `get_query_model_fields` (backends.py lines 28-41): the base model's
fields keyed by name, then every joined model's fields merged in with
later-wins dict assignment. -/
def queryModelFields (qs : QSym) : List (String × FieldInfo) :=
  let base := qs.baseFields.foldl (fun acc f => assocSet acc f.name f) []
  qs.joinModels.foldl (fun acc jm => jm.foldl (fun acc f => assocSet acc f.name f) acc) base

/-- `queryset.filter(pred)` on the symbolic queryset: successive filter
applications AND their predicate groups. -/
def qsymFilter (qs : QSym) (p : Pred) : QSym :=
  { qs with applied := qs.applied ++ [p] }

/-- Left-to-right effectful map over `Except`, mirroring a Python list
comprehension that may raise. -/
def mapMExcept {α β ε : Type} (g : α → Except ε β) : List α → Except ε (List β)
  | [] => .ok []
  | a :: t =>
    match g a with
    | .error e => .error e
    | .ok b =>
      match mapMExcept g t with
      | .error e => .error e
      | .ok bs => .ok (b :: bs)

/-- `str.lower()` over the characters (the primitive `String.toLower` does
not reduce in the kernel). -/
def lowerStr (s : String) : String :=
  String.mk (s.toList.map Char.toLower)

/-- `field_name[1:]`. -/
def dropOne (s : String) : String :=
  String.mk (s.toList.drop 1)

/-- `item.startswith('-')`. -/
def startsDash (s : String) : Bool :=
  match s.toList with
  | c :: _ => decide (c = '-')
  | [] => false

/-- `construct_search` (backends.py lines 67-87): read an optional lookup
prefix character, resolve the remaining (lower-cased) name in the merged
field index, and fail with a configuration error if unresolvable.  The
source would raise `IndexError` on an empty configured name
(`field_name[0]`); here the empty name simply fails resolution. -/
def constructSearch (index : List (String × FieldInfo)) (field_name : String) :
    Except ConfigErr (FieldInfo × OpM × Tpl) :=
  let pref := match field_name.toList with
    | [] => none
    | c :: _ => prefLookup c
  let lookup := match pref with
    | some l => l
    | none => (.ilike, .containsT)
  let fname := match pref with
    | some _ => dropOne field_name
    | none => field_name
  match alookup index (lowerStr fname) with
  | none => .error ⟨fname⟩
  | some field => .ok (field, lookup.1, lookup.2)

/-- Whitespace split of `get_search_terms` after the comma replacement:
non-empty runs of non-space characters. -/
def splitTerms : List Char → List Char → List String
  | [], [] => []
  | [], cur => [String.mk cur.reverse]
  | c :: rest, cur =>
    if c = ' ' then
      match cur with
      | [] => splitTerms rest []
      | _ => String.mk cur.reverse :: splitTerms rest []
    else splitTerms rest (c :: cur)

/-- `get_search_terms` (backends.py lines 57-65):
`search_param.replace(',', ' ').split()`. -/
def getSearchTerms (raw : String) : List String :=
  splitTerms (raw.toList.map (fun c => if c = ',' then ' ' else c)) []

/-- `reduce(operator.or_, queries)`: left-nested OR of a non-empty predicate
list. -/
def reduceOr : List Pred → Option Pred
  | [] => none
  | h :: t => some (t.foldl Pred.orP h)

/-- The expression built for one (resolved lookup, term) pair
(backends.py line 100). -/
def toExpr (term : String) (l : FieldInfo × OpM × Tpl) : Pred :=
  .expr l.1 l.2.1 (renderTpl l.2.2 term)

/-- `SearchFilter.filter_queryset` (backends.py lines 89-103): no-op when the
configured fields or the parsed terms are empty; resolve every configured
field before filtering (an unresolvable one raises); then one filter
application per term, each the OR of the per-field expressions. -/
def searchFilterQueryset (search_fields : List String) (raw : String) (qs : QSym) :
    Except ConfigErr QSym :=
  let terms := getSearchTerms raw
  if search_fields.isEmpty || terms.isEmpty then .ok qs
  else
    match mapMExcept (fun sf => constructSearch (queryModelFields qs) sf) search_fields with
    | .error e => .error e
    | .ok lookups =>
      .ok (terms.foldl
        (fun q term =>
          match reduceOr (lookups.map (toExpr term)) with
          | some p => qsymFilter q p
          | none => q)
        qs)

/-! ### OrderingFilter (backends.py lines 106-180) -/

/-- `item.lstrip(c)`: drop the leading run of the character. -/
def lstripChar (c : Char) (s : String) : String :=
  String.mk (s.toList.dropWhile (fun x => decide (x = c)))

/-- `remove_invalid_fields` (backends.py lines 140-142): keep the requested
entries whose dash-stripped, lower-cased name is in the allow-list. -/
def removeInvalidFields (valid : List String) (ordering : List String) : List String :=
  ordering.filter (fun f => memB valid (lowerStr (lstripChar '-' f)))

/-- `get_ordering` (backends.py lines 115-122): a non-empty request is
filtered against the allow-list; when everything is dropped (or nothing was
requested), fall back to the view's default ordering. -/
def getOrderingM (requested : List String) (valid : List String)
    (dflt : Option (List String)) : Option (List String) :=
  match requested with
  | [] => dflt
  | r :: rs =>
    match removeInvalidFields valid (r :: rs) with
    | [] => dflt
    | o => some o

/-- `construct_ordering` (backends.py lines 144-171) on string items (the
`models.Field` branch normalises field objects to strings and is not
exercised by string orderings): strip the leading direction characters,
resolve the name in the merged field index (a miss raises
`ImproperlyConfigured`), and record descending iff the item starts with
a dash. -/
def constructOrdering (index : List (String × FieldInfo)) (ordering : List String) :
    Except ConfigErr (List (FieldInfo × Bool)) :=
  mapMExcept
    (fun item =>
      let stripped :=
        if memB item.toList '-' then lstripChar '-' item else lstripChar '+' item
      match alookup index stripped with
      | none => .error ⟨stripped⟩
      | some field => .ok (field, startsDash item))
    ordering

/-- `OrderingFilter.filter_queryset` (backends.py lines 173-180): a falsy
ordering (none requested and no default, or an empty list) leaves the
queryset unchanged; otherwise the normalised ordering is applied with
`order_by`. -/
def orderingFilterQueryset (requested : List String) (valid : List String)
    (dflt : Option (List String)) (qs : QSym) : Except ConfigErr QSym :=
  match getOrderingM requested valid dflt with
  | some (i :: rest) =>
    match constructOrdering (queryModelFields qs) (i :: rest) with
    | .error e => .error e
    | .ok norm => .ok { qs with orderedBy := some norm }
  | _ => .ok qs

/-! ## Lemma kit for the association-list embedding -/

theorem memB_iff {α : Type} [DecidableEq α] (l : List α) (x : α) :
    memB l x = true ↔ x ∈ l := by
  simp [memB]

theorem memB_eq_false_iff {α : Type} [DecidableEq α] (l : List α) (x : α) :
    memB l x = false ↔ ¬ x ∈ l := by
  rw [← Bool.not_eq_true, not_iff_not, memB_iff]

theorem keysOf_cons {α : Type} (p : String × α) (t : List (String × α)) :
    keysOf (p :: t) = p.1 :: keysOf t := rfl

theorem hasKey_cons {α : Type} (p : String × α) (t : List (String × α)) (k : String) :
    hasKey (p :: t) k = (decide (p.1 = k) || hasKey t k) := by
  simp [hasKey, List.any_cons]

theorem hasKey_iff {α : Type} (l : List (String × α)) (k : String) :
    hasKey l k = true ↔ k ∈ keysOf l := by
  induction l with
  | nil => simp [hasKey, keysOf]
  | cons p t ih =>
    rw [hasKey_cons]
    simp only [Bool.or_eq_true, decide_eq_true_eq, ih, keysOf_cons, List.mem_cons]
    exact or_congr_left eq_comm

theorem hasKey_eq_false_iff {α : Type} (l : List (String × α)) (k : String) :
    hasKey l k = false ↔ ¬ k ∈ keysOf l := by
  rw [← Bool.not_eq_true, not_iff_not, hasKey_iff]

theorem alookup_append {α : Type} (l m : List (String × α)) (k : String) :
    alookup (l ++ m) k = match alookup l k with
      | some v => some v
      | none => alookup m k := by
  induction l with
  | nil => simp [alookup]
  | cons p t ih =>
    by_cases h : p.1 = k
    · simp [alookup, h]
    · simp [alookup, h, ih]

theorem alookup_eq_none_iff {α : Type} (l : List (String × α)) (k : String) :
    alookup l k = none ↔ ¬ k ∈ keysOf l := by
  induction l with
  | nil => simp [alookup, keysOf]
  | cons p t ih =>
    by_cases h : p.1 = k
    · simp [alookup, h, keysOf]
    · simp [alookup, h, keysOf] at ih ⊢
      exact ⟨fun hn => ⟨fun he => h he.symm, ih.mp hn⟩, fun hn => ih.mpr hn.2⟩

theorem mem_of_alookup_eq_some {α : Type} {l : List (String × α)} {k : String} {v : α}
    (h : alookup l k = some v) : (k, v) ∈ l := by
  induction l with
  | nil => simp [alookup] at h
  | cons p t ih =>
    by_cases hk : p.1 = k
    · simp [alookup, hk] at h
      subst hk
      subst h
      exact List.mem_cons_self _ _
    · simp [alookup, hk] at h
      exact List.mem_cons_of_mem _ (ih h)

theorem keysOf_append {α : Type} (l m : List (String × α)) :
    keysOf (l ++ m) = keysOf l ++ keysOf m := by
  simp [keysOf]

theorem keysOf_mem_of_mem {α : Type} {l : List (String × α)} {p : String × α}
    (h : p ∈ l) : p.1 ∈ keysOf l := by
  unfold keysOf
  exact List.mem_map.mpr ⟨p, h, rfl⟩

theorem alookup_of_mem_nodup {α : Type} {l : List (String × α)} {k : String} {v : α}
    (hn : (keysOf l).Nodup) (hm : (k, v) ∈ l) : alookup l k = some v := by
  induction l with
  | nil => simp at hm
  | cons p t ih =>
    have hn' := List.nodup_cons.mp (by simpa [keysOf_cons] using hn)
    rcases List.mem_cons.mp hm with h | h
    · rw [← h]
      simp [alookup]
    · have hk : ¬ p.1 = k := by
        intro he
        exact hn'.1 (he ▸ keysOf_mem_of_mem h)
      simp [alookup, hk]
      exact ih hn'.2 h

theorem alookup_mapReplace_ne {α : Type} (l : List (String × α)) (k : String) (v : α)
    (k' : String) (h : ¬ k = k') :
    alookup (l.map (fun p => if p.1 = k then (k, v) else p)) k' = alookup l k' := by
  induction l with
  | nil => simp [alookup]
  | cons p t ih =>
    by_cases hp : p.1 = k
    · simp [alookup, hp, h, ih]
    · have hhead : (if p.1 = k then (k, v) else p) = p := if_neg hp
      simp only [List.map_cons, hhead, alookup]
      by_cases hpk : p.1 = k'
      · simp [hpk]
      · simp [hpk, ih]

theorem alookup_mapReplace_self {α : Type} (l : List (String × α)) (k : String) (v : α)
    (h : hasKey l k = true) :
    alookup (l.map (fun p => if p.1 = k then (k, v) else p)) k = some v := by
  induction l with
  | nil => simp [hasKey] at h
  | cons p t ih =>
    by_cases hp : p.1 = k
    · simp [alookup, hp]
    · rw [hasKey_cons] at h
      simp [hp] at h
      simp [alookup, hp]
      exact ih h

theorem alookup_assocSet {α : Type} (l : List (String × α)) (k : String) (v : α)
    (k' : String) :
    alookup (assocSet l k v) k' = if k = k' then some v else alookup l k' := by
  unfold assocSet
  by_cases hc : hasKey l k = true
  · rw [if_pos hc]
    by_cases he : k = k'
    · subst he
      rw [alookup_mapReplace_self l k v hc, if_pos rfl]
    · rw [alookup_mapReplace_ne l k v k' he, if_neg he]
  · rw [if_neg hc, alookup_append]
    by_cases he : k = k'
    · subst he
      have hnone : alookup l k = none := by
        rw [alookup_eq_none_iff]
        intro hm
        exact hc ((hasKey_iff l k).mpr hm)
      simp [hnone, alookup]
    · rw [if_neg he]
      cases hl : alookup l k' with
      | some v' => simp
      | none => simp [alookup, he]

theorem assocSet_of_not_hasKey {α : Type} {l : List (String × α)} {k : String} (v : α)
    (h : hasKey l k = false) : assocSet l k v = l ++ [(k, v)] := by
  unfold assocSet
  rw [h]
  simp

theorem alookup_filter_key {α : Type} (l : List (String × α)) (q : String → Bool)
    (k : String) :
    alookup (l.filter (fun p => q p.1)) k =
      if q k then alookup l k else none := by
  induction l with
  | nil => simp [alookup]
  | cons p t ih =>
    by_cases hq : q p.1 = true
    · rw [List.filter_cons_of_pos (by simpa using hq)]
      by_cases hp : p.1 = k
      · subst hp
        simp [alookup, hq]
      · simp [alookup, hp, ih]
    · rw [List.filter_cons_of_neg (by simpa using hq), ih]
      by_cases hp : p.1 = k
      · subst hp
        rw [Bool.not_eq_true] at hq
        simp [alookup, hq]
      · simp [alookup, hp]

/-! ## C1: lemmas about the field-registry merge -/

theorem memB_append {α : Type} [DecidableEq α] (l m : List α) (x : α) :
    memB (l ++ m) x = (memB l x || memB m x) := by
  simp [memB, List.any_append]

theorem perm_insertByCounter (x : String × Nat) (l : List (String × Nat)) :
    (insertByCounter x l).Perm (x :: l) := by
  induction l with
  | nil => simp [insertByCounter]
  | cons y t ih =>
    unfold insertByCounter
    by_cases h : x.2 ≤ y.2
    · simp [h]
    · rw [if_neg h]
      exact (ih.cons y).trans (List.Perm.swap x y t)

theorem perm_sortByCounter (l : List (String × Nat)) : (sortByCounter l).Perm l := by
  induction l with
  | nil => simp [sortByCounter]
  | cons x t ih =>
    unfold sortByCounter
    exact (perm_insertByCounter x (sortByCounter t)).trans (ih.cons x)

theorem keysOf_perm {α : Type} {l m : List (String × α)} (h : l.Perm m) :
    (keysOf l).Perm (keysOf m) := List.Perm.map _ h

theorem keysOf_declaredFields_nodup {c : ClassInfo} (h : (keysOf c.ownFields).Nodup) :
    (keysOf (declaredFields c)).Nodup :=
  (keysOf_perm (perm_sortByCounter c.ownFields).symm).nodup h

theorem alookup_sortByCounter {l : List (String × Nat)} (hn : (keysOf l).Nodup)
    (k : String) : alookup (sortByCounter l) k = alookup l k := by
  cases h : alookup l k with
  | some v =>
    exact alookup_of_mem_nodup (@keysOf_declaredFields_nodup ⟨l, []⟩ hn)
      ((perm_sortByCounter l).mem_iff.mpr (mem_of_alookup_eq_some h))
  | none =>
    rw [alookup_eq_none_iff] at h ⊢
    intro hm
    exact h ((keysOf_perm (perm_sortByCounter l)).mem_iff.mp hm)

theorem lookup_odUpdate (acc entries : List (String × Nat)) (k : String) :
    alookup (odUpdate acc entries) k =
      match entLast entries k with
      | some v => some v
      | none => alookup acc k := by
  induction entries generalizing acc with
  | nil => simp [odUpdate, entLast]
  | cons p t ih =>
    have hstep : odUpdate acc (p :: t) = odUpdate (assocSet acc p.1 p.2) t := rfl
    rw [hstep, ih]
    cases h : entLast t k with
    | some v => simp [entLast, h]
    | none =>
      simp only [entLast, h, alookup_assocSet]
      by_cases hp : p.1 = k
      · simp [hp]
      · simp [hp]

theorem entLast_eq_alookup {l : List (String × Nat)} (hn : (keysOf l).Nodup)
    (k : String) : entLast l k = alookup l k := by
  induction l with
  | nil => rfl
  | cons p t ih =>
    have hn' := List.nodup_cons.mp (by simpa [keysOf_cons] using hn)
    rw [show entLast (p :: t) k =
      (match entLast t k with
       | some v => some v
       | none => if p.1 = k then some p.2 else none) from rfl]
    rw [ih hn'.2]
    cases h : alookup t k with
    | some v =>
      have hk : ¬ p.1 = k := by
        intro he
        exact hn'.1 (he ▸ keysOf_mem_of_mem (mem_of_alookup_eq_some h))
      simp [alookup, hk, h]
    | none =>
      by_cases hp : p.1 = k
      · simp [alookup, hp]
      · simp [alookup, hp, h]

theorem base_fields_concat (l : List ClassInfo) (c : ClassInfo) :
    base_fields (l ++ [c]) = classStep (base_fields l) c := by
  unfold base_fields
  rw [List.foldl_append]
  rfl

theorem lastMention_concat (l : List ClassInfo) (c : ClassInfo) (k : String) :
    lastMention (l ++ [c]) k =
      match classMention c k with
      | some r => some r
      | none => lastMention l k := by
  induction l with
  | nil =>
    cases h : classMention c k with
    | some r => simp [lastMention, h]
    | none => simp [lastMention, h]
  | cons d t ih =>
    rw [show (d :: t) ++ [c] = d :: (t ++ [c]) from rfl]
    rw [show lastMention (d :: (t ++ [c])) k =
      (match lastMention (t ++ [c]) k with
       | some r => some r
       | none => classMention d k) from rfl]
    rw [ih]
    cases h : classMention c k with
    | some r => simp
    | none =>
      simp
      rfl

theorem wfChain_append_left {l : List ClassInfo} {c : ClassInfo}
    (h : wfChain (l ++ [c])) : wfChain l :=
  fun d hd => h d (List.mem_append.mpr (Or.inl hd))

theorem wfChain_append_right {l : List ClassInfo} {c : ClassInfo}
    (h : wfChain (l ++ [c])) : wfClass c :=
  h c (List.mem_append.mpr (Or.inr (List.mem_singleton.mpr rfl)))

theorem c1_lookup (chain : List ClassInfo) (hw : wfChain chain) (k : String) :
    alookup (base_fields chain) k = (lastMention chain k).join := by
  induction chain using List.reverseRecOn with
  | nil => simp [base_fields, lastMention, alookup]
  | append_singleton l c ih =>
    rw [base_fields_concat, lastMention_concat]
    have hwc : wfClass c := wfChain_append_right hw
    have hwl : wfChain l := wfChain_append_left hw
    unfold classStep
    rw [alookup_filter_key _ (fun s => !(memB c.nones s)) k, lookup_odUpdate]
    have hent : entLast (declaredFields c) k = alookup c.ownFields k := by
      rw [entLast_eq_alookup (keysOf_declaredFields_nodup hwc.1) k]
      exact alookup_sortByCounter hwc.1 k
    cases hmem : memB c.nones k with
    | true =>
      rw [if_neg (by simp)]
      unfold classMention
      rw [if_pos hmem]
      rfl
    | false =>
      rw [if_pos (by simp)]
      rw [hent]
      unfold classMention
      rw [if_neg (by simp [hmem])]
      cases h : alookup c.ownFields k with
      | some v => simp
      | none =>
        simp only []
        exact ih hwl

theorem keysOf_filter_mem {α : Type} {l : List (String × α)} {q : String × α → Bool}
    {k : String} (h : k ∈ keysOf (l.filter q)) : k ∈ keysOf l := by
  unfold keysOf at h ⊢
  rcases List.mem_map.mp h with ⟨p, hp, he⟩
  exact List.mem_map.mpr ⟨p, (List.mem_filter.mp hp).1, he⟩

theorem odUpdate_append {acc entries : List (String × Nat)}
    (hn : (keysOf entries).Nodup) (hd : ∀ k ∈ keysOf entries, ¬ k ∈ keysOf acc) :
    odUpdate acc entries = acc ++ entries := by
  induction entries generalizing acc with
  | nil => simp [odUpdate]
  | cons p t ih =>
    have hn' := List.nodup_cons.mp (by simpa [keysOf_cons] using hn)
    have hstep : odUpdate acc (p :: t) = odUpdate (assocSet acc p.1 p.2) t := rfl
    have hnk : hasKey acc p.1 = false := by
      rw [hasKey_eq_false_iff]
      exact hd p.1 (by simp [keysOf_cons])
    rw [hstep, assocSet_of_not_hasKey p.2 hnk]
    have hrec := @ih (acc ++ [(p.1, p.2)]) hn'.2 ?_
    · rw [hrec, List.append_assoc]
      rfl
    · intro k hk
      rw [keysOf_append]
      intro hmem
      rcases List.mem_append.mp hmem with h1 | h1
      · exact hd k (by simp [keysOf_cons, hk]) h1
      · have : k = p.1 := by simpa [keysOf] using h1
        exact hn'.1 (this ▸ hk)

theorem filter_declaredFields_eq {c : ClassInfo} (hw : wfClass c) :
    (declaredFields c).filter (fun p => !(memB c.nones p.1)) = declaredFields c := by
  apply List.filter_eq_self.mpr
  intro p hp
  have hkey : p.1 ∈ keysOf c.ownFields :=
    keysOf_mem_of_mem ((perm_sortByCounter c.ownFields).mem_iff.mp hp)
  have hnone : ¬ p.1 ∈ c.nones := hw.2 p.1 hkey
  have hf : memB c.nones p.1 = false := (memB_eq_false_iff c.nones p.1).mpr hnone
  simp [hf]

theorem c1_merge_aux (chain : List ClassInfo) :
    ∀ acc, wfChain chain → distinctKeys chain →
    (∀ k ∈ keysOf acc, ¬ k ∈ allKeys chain) →
    chain.foldl classStep acc =
      acc.filter (fun p => !(memB (allNones chain) p.1)) ++ mergeSpec chain := by
  induction chain with
  | nil =>
    intro acc _ _ _
    simp [mergeSpec, allNones, memB]
  | cons c rest ih =>
    intro acc hw hdk hacc
    have hwc : wfClass c := hw c (by simp)
    have hwrest : wfChain rest := fun d hd => hw d (by simp [hd])
    have hdisj : List.Disjoint (keysOf c.ownFields) (allKeys rest) :=
      (List.nodup_append.mp hdk).2.2
    have hdkrest : distinctKeys rest := (List.nodup_append.mp hdk).2.1
    have hstep : (c :: rest).foldl classStep acc = rest.foldl classStep (classStep acc c) := rfl
    have hupd : odUpdate acc (declaredFields c) = acc ++ declaredFields c := by
      apply odUpdate_append (keysOf_declaredFields_nodup hwc.1)
      intro k hk hka
      have hk' : k ∈ keysOf c.ownFields :=
        (keysOf_perm (perm_sortByCounter c.ownFields)).mem_iff.mp hk
      exact hacc k hka (by simp [allKeys, hk'])
    have hcs : classStep acc c =
        acc.filter (fun p => !(memB c.nones p.1)) ++ declaredFields c := by
      unfold classStep
      rw [hupd, List.filter_append, filter_declaredFields_eq hwc]
    rw [hstep, hcs]
    rw [ih _ hwrest hdkrest ?_]
    · rw [List.filter_append, List.filter_filter]
      have hcomb : acc.filter
            (fun p => (!(memB (allNones rest) p.1)) && (!(memB c.nones p.1))) =
          acc.filter (fun p => !(memB (allNones (c :: rest)) p.1)) := by
        apply List.filter_congr
        intro p _
        rw [show allNones (c :: rest) = c.nones ++ allNones rest from rfl]
        rw [memB_append, Bool.not_or, Bool.and_comm]
      rw [hcomb]
      rw [show mergeSpec (c :: rest) =
        (declaredFields c).filter (fun p => !(memB (allNones rest) p.1)) ++ mergeSpec rest
        from rfl]
      rw [List.append_assoc]
    · intro k hk
      rcases List.mem_append.mp (by simpa [keysOf_append] using hk) with h1 | h1
      · intro hka
        exact hacc k (keysOf_filter_mem h1) (by simp [allKeys, hka])
      · have hk' : k ∈ keysOf c.ownFields :=
          (keysOf_perm (perm_sortByCounter c.ownFields)).mem_iff.mp h1
        exact hdisj hk'

/-- Claim C1, counterexample to the ordering conjunct as stated: with a base
class declaring `f` (counter 0) and `g` (counter 1) and a derived class
declaring `new1` (counter 5) and then overriding `g` (counter 6), the merged
registry is `[f, g, new1]` — the overriding `g` keeps the overridden base
position, so the derived class's own fields appear as `g` (counter 6) before
`new1` (counter 5), not in creation-counter order. -/
theorem c1_registry_counterexample :
    base_fields [⟨[("f", 0), ("g", 1)], []⟩, ⟨[("new1", 5), ("g", 6)], []⟩] =
      [("f", 0), ("g", 6), ("new1", 5)] ∧
    ¬ List.Pairwise (fun p q => p.2 ≤ q.2)
        ((base_fields [⟨[("f", 0), ("g", 1)], []⟩, ⟨[("new1", 5), ("g", 6)], []⟩]).filter
          (fun p => memB [("new1" : String), "g"] p.1)) := by
  constructor
  · rfl
  · decide

/-- Claim C1 (amended): for every well-formed inheritance chain, walking the
ancestors most-base to most-derived, a name's fate in the merged registry is
decided by the most-derived class mentioning it — a later same-named
declaration overwrites an earlier one, and a name whose last mention is an
explicit null sentinel is omitted even when a more-base ancestor declared it.
When no field name is declared by two classes of the chain, the merged
registry is exactly the per-class blocks in base-to-derived order, each
class's own fields sorted by their creation counter, with shadow-deleted
names dropped.  (An overriding re-declaration keeps the overridden field's
position rather than its own creation-counter position, which is the one
correction to the claim.) -/
theorem c1_registry_amended :
    (∀ chain, wfChain chain →
      ∀ k, alookup (base_fields chain) k = (lastMention chain k).join) ∧
    (∀ chain, wfChain chain → distinctKeys chain → base_fields chain = mergeSpec chain) := by
  constructor
  · exact fun chain hw k => c1_lookup chain hw k
  · intro chain hw hdk
    have h := c1_merge_aux chain [] hw hdk (by simp [keysOf])
    simpa [base_fields] using h

/-- Witness for C1: the characterisation evaluated on a concrete chain where
the derived class overrides `b` and shadow-deletes `a`, and the block
description evaluated on a chain with fresh names per class. -/
theorem c1_registry_amended_witness :
    (alookup
        (base_fields [⟨[("a", 0), ("b", 1)], []⟩, ⟨[("b", 9)], ["a"]⟩]) "b" =
      (lastMention [⟨[("a", 0), ("b", 1)], []⟩, ⟨[("b", 9)], ["a"]⟩] "b").join) ∧
    base_fields [⟨[("a", 0), ("b", 1)], []⟩, ⟨[("d", 7), ("c", 3)], ["a"]⟩] =
      mergeSpec [⟨[("a", 0), ("b", 1)], []⟩, ⟨[("d", 7), ("c", 3)], ["a"]⟩] :=
  ⟨c1_registry_amended.1 [⟨[("a", 0), ("b", 1)], []⟩, ⟨[("b", 9)], ["a"]⟩]
      (by decide) "b",
    c1_registry_amended.2 [⟨[("a", 0), ("b", 1)], []⟩, ⟨[("d", 7), ("c", 3)], ["a"]⟩]
      (by decide) (by decide)⟩

/-! ## C2-C4: lemmas about the clean pipeline -/

theorem hasKey_append {α : Type} (l m : List (String × α)) (k : String) :
    hasKey (l ++ m) k = (hasKey l k || hasKey m k) := by
  simp [hasKey, List.any_append]

theorem projErrs_append {V E : Type} (tr tr' : List (String × FOutcome V E)) :
    projErrs (tr ++ tr') = projErrs tr ++ projErrs tr' := by
  simp [projErrs, List.filterMap_append]

theorem projErrs_fail {V E : Type} (n : String) (el : List E) :
    projErrs [((n, FOutcome.fail el) : String × FOutcome V E)] = [(n, el)] := rfl

theorem projErrs_okv {V E : Type} (n : String) (v : V) :
    projErrs [((n, FOutcome.okv v) : String × FOutcome V E)] = ([] : List (String × List E)) := rfl

theorem cleanGo_eq_traceGo {V E : Type} (f : FormM V E) :
    ∀ (fields : List (String × FieldSpec V E)) cd tr,
      cleanFieldsGo f fields cd (projErrs tr) =
        ((traceGo f fields cd tr).1, projErrs (traceGo f fields cd tr).2) := by
  intro fields
  induction fields with
  | nil => intro cd tr; rfl
  | cons nf rest ih =>
    intro cd tr
    obtain ⟨n, fs⟩ := nf
    by_cases hd : fs.disabled = true
    · simp only [cleanFieldsGo, traceGo, hd, if_true]
      exact ih cd tr
    · rw [Bool.not_eq_true] at hd
      simp only [cleanFieldsGo, traceGo, hd, Bool.false_eq_true, if_false]
      cases hc : fs.clean (f.data n) with
      | error el =>
        have h := ih cd (tr ++ [(n, .fail el)])
        rw [projErrs_append, projErrs_fail] at h
        exact h
      | ok v =>
        dsimp only
        cases hh : f.hooks n with
        | none =>
          have h := ih (assocSet cd n v) (tr ++ [(n, .okv v)])
          rw [projErrs_append, projErrs_okv, List.append_nil] at h
          exact h
        | some hk =>
          dsimp only
          cases hr : hk (assocSet cd n v) with
          | ok v2 =>
            have h := ih (assocSet (assocSet cd n v) n v2) (tr ++ [(n, .okv v2)])
            rw [projErrs_append, projErrs_okv, List.append_nil] at h
            exact h
          | error el =>
            have h := ih (assocSet cd n v) (tr ++ [(n, .fail el)])
            rw [projErrs_append, projErrs_fail] at h
            exact h

theorem cleanFieldsFold_eq_trace {V E : Type} (f : FormM V E) :
    cleanFieldsFold f = ((cleanFieldsTrace f).1, projErrs (cleanFieldsTrace f).2) := by
  have h := cleanGo_eq_traceGo f f.fields [] []
  exact h

theorem traceGo_mono {V E : Type} (f : FormM V E) :
    ∀ (fields : List (String × FieldSpec V E)) cd tr (x : String × FOutcome V E),
      x ∈ tr → x ∈ (traceGo f fields cd tr).2 := by
  intro fields
  induction fields with
  | nil => intro cd tr x hx; exact hx
  | cons nf rest ih =>
    intro cd tr x hx
    obtain ⟨n, fs⟩ := nf
    by_cases hd : fs.disabled = true
    · simp only [traceGo, hd, if_true]
      exact ih cd tr x hx
    · rw [Bool.not_eq_true] at hd
      simp only [traceGo, hd, Bool.false_eq_true, if_false]
      cases hc : fs.clean (f.data n) with
      | error el => exact ih _ _ x (List.mem_append_left _ hx)
      | ok v =>
        dsimp only
        cases hh : f.hooks n with
        | none => exact ih _ _ x (List.mem_append_left _ hx)
        | some hk =>
          dsimp only
          cases hr : hk (assocSet cd n v) with
          | ok v2 => exact ih _ _ x (List.mem_append_left _ hx)
          | error el => exact ih _ _ x (List.mem_append_left _ hx)

theorem traceGo_attempted {V E : Type} (f : FormM V E) :
    ∀ (fields : List (String × FieldSpec V E)) cd tr (n : String) (fs : FieldSpec V E),
      (n, fs) ∈ fields → fs.disabled = false →
      ∃ r, (n, r) ∈ (traceGo f fields cd tr).2 := by
  intro fields
  induction fields with
  | nil => intro cd tr n fs hm; simp at hm
  | cons nf rest ih =>
    intro cd tr n fs hm hnd
    obtain ⟨m, gs⟩ := nf
    rcases List.mem_cons.mp hm with h | h
    · have hn : n = m := congrArg Prod.fst h
      have hg : fs = gs := congrArg Prod.snd h
      subst hn
      subst hg
      simp only [traceGo, hnd, Bool.false_eq_true, if_false]
      cases hc : fs.clean (f.data n) with
      | error el =>
        exact ⟨.fail el, traceGo_mono f rest _ _ _ (List.mem_append_right _ (by simp))⟩
      | ok v =>
        dsimp only
        cases hh : f.hooks n with
        | none =>
          exact ⟨.okv v, traceGo_mono f rest _ _ _ (List.mem_append_right _ (by simp))⟩
        | some hk =>
          dsimp only
          cases hr : hk (assocSet cd n v) with
          | ok v2 =>
            exact ⟨.okv v2, traceGo_mono f rest _ _ _ (List.mem_append_right _ (by simp))⟩
          | error el =>
            exact ⟨.fail el, traceGo_mono f rest _ _ _ (List.mem_append_right _ (by simp))⟩
    · by_cases hd : gs.disabled = true
      · simp only [traceGo, hd, if_true]
        exact ih cd tr n fs h hnd
      · rw [Bool.not_eq_true] at hd
        simp only [traceGo, hd, Bool.false_eq_true, if_false]
        cases hc : gs.clean (f.data m) with
        | error el => exact ih _ _ n fs h hnd
        | ok v =>
          dsimp only
          cases hh : f.hooks m with
          | none => exact ih _ _ n fs h hnd
          | some hk =>
            dsimp only
            cases hr : hk (assocSet cd m v) with
            | ok v2 => exact ih _ _ n fs h hnd
            | error el => exact ih _ _ n fs h hnd

theorem traceGo_keys {V E : Type} (f : FormM V E) :
    ∀ (fields : List (String × FieldSpec V E)) cd tr,
      ∃ l, keysOf (traceGo f fields cd tr).2 = keysOf tr ++ l ∧
        l.Sublist (keysOf fields) := by
  intro fields
  induction fields with
  | nil => intro cd tr; exact ⟨[], by simp [traceGo], List.nil_sublist _⟩
  | cons nf rest ih =>
    intro cd tr
    obtain ⟨n, fs⟩ := nf
    by_cases hd : fs.disabled = true
    · obtain ⟨l, he, hs⟩ := ih cd tr
      simp only [traceGo, hd, if_true]
      exact ⟨l, he, hs.cons n⟩
    · rw [Bool.not_eq_true] at hd
      simp only [traceGo, hd, Bool.false_eq_true, if_false]
      cases hc : fs.clean (f.data n) with
      | error el =>
        obtain ⟨l, he, hs⟩ := ih cd (tr ++ [(n, .fail el)])
        refine ⟨n :: l, ?_, hs.cons₂ n⟩
        rw [he, keysOf_append]
        simp [keysOf, List.append_assoc]
      | ok v =>
        dsimp only
        cases hh : f.hooks n with
        | none =>
          obtain ⟨l, he, hs⟩ := ih (assocSet cd n v) (tr ++ [(n, .okv v)])
          refine ⟨n :: l, ?_, hs.cons₂ n⟩
          rw [he, keysOf_append]
          simp [keysOf, List.append_assoc]
        | some hk =>
          dsimp only
          cases hr : hk (assocSet cd n v) with
          | ok v2 =>
            obtain ⟨l, he, hs⟩ := ih (assocSet (assocSet cd n v) n v2) (tr ++ [(n, .okv v2)])
            refine ⟨n :: l, ?_, hs.cons₂ n⟩
            rw [he, keysOf_append]
            simp [keysOf, List.append_assoc]
          | error el =>
            obtain ⟨l, he, hs⟩ := ih (assocSet cd n v) (tr ++ [(n, .fail el)])
            refine ⟨n :: l, ?_, hs.cons₂ n⟩
            rw [he, keysOf_append]
            simp [keysOf, List.append_assoc]

theorem projErrs_keys_sublist {V E : Type} (tr : List (String × FOutcome V E)) :
    (keysOf (projErrs tr)).Sublist (keysOf tr) := by
  induction tr with
  | nil => simp [projErrs, keysOf]
  | cons p t ih =>
    obtain ⟨n, o⟩ := p
    cases o with
    | fail el =>
      simp only [projErrs, List.filterMap_cons]
      exact ih.cons₂ n
    | okv v =>
      simp only [projErrs, List.filterMap_cons]
      exact ih.cons n

theorem trace_keys_nodup {V E : Type} (f : FormM V E)
    (hn : (keysOf f.fields).Nodup) :
    (keysOf (projErrs (cleanFieldsTrace f).2)).Nodup := by
  obtain ⟨l, he, hs⟩ := traceGo_keys f f.fields [] []
  have h1 : (keysOf (cleanFieldsTrace f).2).Nodup := by
    rw [show (cleanFieldsTrace f).2 = (traceGo f f.fields [] []).2 from rfl, he]
    simpa [keysOf] using hs.nodup hn
  exact (projErrs_keys_sublist _).nodup h1

theorem addError_fold_eq {V E : Type} :
    ∀ (d : List (String × List E)) (st : FormState V E),
      d.foldl
        (fun st p =>
          (⟨st.errors.map (fun es => appendErrs es p.1 p.2),
            st.cleaned.map (fun cd => eraseKey cd p.1)⟩ : FormState V E))
        st =
      ⟨st.errors.map (fun es => d.foldl (fun es p => appendErrs es p.1 p.2) es),
       st.cleaned.map (fun cd => d.foldl (fun cd p => eraseKey cd p.1) cd)⟩ := by
  intro d
  induction d with
  | nil =>
    intro st
    cases st with
    | mk es cd =>
      cases es <;> cases cd <;> rfl
  | cons p t ih =>
    intro st
    rw [List.foldl_cons, ih]
    cases st with
    | mk es cd =>
      cases es <;> cases cd <;> rfl

theorem addError_edict_eq {V E : Type} (st : FormState V E) (d : List (String × List E)) :
    addError st (.edict d) =
      ⟨st.errors.map (fun es => d.foldl (fun es p => appendErrs es p.1 p.2) es),
       st.cleaned.map (fun cd => d.foldl (fun cd p => eraseKey cd p.1) cd)⟩ :=
  addError_fold_eq d st

theorem addError_elist_eq {V E : Type} (st : FormState V E) (l : List E) :
    addError st (.elist l) =
      ⟨st.errors.map (fun es => appendErrs es NON_FIELD_ERRORS l),
       st.cleaned.map (fun cd => eraseKey cd NON_FIELD_ERRORS)⟩ := by
  cases st with
  | mk es cd => cases es <;> cases cd <;> rfl

theorem foldAppend_fresh {E : Type} :
    ∀ (d es : List (String × List E)), (keysOf d).Nodup →
      (∀ k ∈ keysOf d, hasKey es k = false) →
      d.foldl (fun es p => appendErrs es p.1 p.2) es = es ++ d := by
  intro d
  induction d with
  | nil => intro es _ _; simp
  | cons p t ih =>
    intro es hn hf
    have hn' := List.nodup_cons.mp (by simpa [keysOf_cons] using hn)
    have hk : hasKey es p.1 = false := hf p.1 (by simp [keysOf_cons])
    rw [List.foldl_cons]
    rw [show appendErrs es p.1 p.2 = es ++ [(p.1, p.2)] from by
      unfold appendErrs; rw [hk]; simp]
    rw [ih (es ++ [(p.1, p.2)]) hn'.2 ?_]
    · simp
    · intro k hkt
      rw [hasKey_append]
      have h1 : hasKey es k = false := hf k (by simp [keysOf_cons, hkt])
      have h2 : hasKey [(p.1, p.2)] k = false := by
        rw [hasKey_eq_false_iff]
        intro hm
        have : k = p.1 := by simpa [keysOf] using hm
        exact hn'.1 (this ▸ hkt)
      rw [h1, h2]
      rfl

theorem fullClean_run {V E : Type} (f : FormM V E) (st : FormState V E)
    (hb : f.is_bound = true)
    (hs : (f.empty_permitted && !hasChangedM f) = false) :
    fullClean f st = cleanStages f ⟨some [], some []⟩ := by
  simp [fullClean, hb, hs]

theorem addError_isSome {V E : Type} (st : FormState V E) (e : VError E) :
    (addError st e).errors.isSome = st.errors.isSome ∧
    (addError st e).cleaned.isSome = st.cleaned.isSome := by
  cases e with
  | elist l =>
    rw [addError_elist_eq]
    cases st with
    | mk es cd => cases es <;> cases cd <;> simp
  | edict d =>
    rw [addError_edict_eq]
    cases st with
    | mk es cd => cases es <;> cases cd <;> simp

theorem formStage_complete {V E : Type} (f : FormM V E) (cd : List (String × V))
    (st : FormState V E) (he : st.errors.isSome = true) :
    (formStage f cd st).errors.isSome = true ∧
    (formStage f cd st).cleaned.isSome = true := by
  unfold formStage
  cases h : f.cleanHook cd with
  | error el =>
    have := addError_isSome (⟨st.errors, some cd⟩ : FormState V E) (.elist el)
    refine ⟨?_, ?_⟩
    · rw [this.1]; exact he
    · rw [this.2]; rfl
  | ok o =>
    cases o with
    | none => exact ⟨he, rfl⟩
    | some cd2 => exact ⟨he, rfl⟩

theorem validatorStage_complete {V E : Type} (f : FormM V E) (st : FormState V E)
    (he : st.errors.isSome = true) (hc : st.cleaned.isSome = true) :
    (validatorStage f st).errors.isSome = true ∧
    (validatorStage f st).cleaned.isSome = true := by
  unfold validatorStage
  cases h : f.validators.findSome? (fun v => v (st.cleaned.getD [])) with
  | some el =>
    have := addError_isSome st (.elist el)
    exact ⟨by rw [this.1]; exact he, by rw [this.2]; exact hc⟩
  | none => exact ⟨he, hc⟩

theorem fullClean_complete {V E : Type} (f : FormM V E) (st : FormState V E)
    (hb : f.is_bound = true) :
    (fullClean f st).errors.isSome = true ∧
    (fullClean f st).cleaned.isSome = true := by
  unfold fullClean
  rw [hb]
  simp only [Bool.not_true, Bool.false_eq_true, if_false]
  by_cases hs : (f.empty_permitted && !hasChangedM f) = true
  · rw [if_pos hs]
    exact ⟨rfl, rfl⟩
  · rw [if_neg hs]
    unfold cleanStages
    cases hcf : cleanFieldsFold f with
    | mk cd ferrs =>
      cases ferrs with
      | nil =>
        have h1 := formStage_complete f cd (⟨some [], some []⟩ : FormState V E) rfl
        exact validatorStage_complete f _ h1.1 h1.2
      | cons e es =>
        have := addError_isSome (⟨some [], some cd⟩ : FormState V E) (.edict (e :: es))
        exact ⟨by rw [this.1]; rfl, by rw [this.2]; rfl⟩

theorem runAccesses_stable {V E : Type} (f : FormM V E) :
    ∀ (accs : List Access) (st : FormState V E),
      st.errors.isSome = true → st.cleaned.isSome = true →
      runAccesses f accs st = (st, 0, accs.map (readOut st)) := by
  intro accs
  induction accs with
  | nil => intro st _ _; rfl
  | cons a rest ih =>
    intro st he hc
    cases a with
    | errs =>
      have hne : st.errors.isNone = false := by
        cases h : st.errors with
        | none => rw [h] at he; simp at he
        | some x => rfl
      simp only [runAccesses, doAccess, hne, Bool.false_eq_true, if_false]
      rw [ih st he hc]
      rfl
    | cdata =>
      have hne : st.cleaned.isNone = false := by
        cases h : st.cleaned with
        | none => rw [h] at hc; simp at hc
        | some x => rfl
      simp only [runAccesses, doAccess, hne, Bool.false_eq_true, if_false]
      rw [ih st he hc]
      rfl

theorem findSome?_all_none {α β : Type} (g : α → Option β) :
    ∀ vs : List α, (∀ x ∈ vs, g x = none) → vs.findSome? g = none := by
  intro vs
  induction vs with
  | nil => intro _; rfl
  | cons v t ih =>
    intro h
    rw [List.findSome?_cons, h v (by simp)]
    exact ih (fun x hx => h x (by simp [hx]))

theorem findSome?_first_fail {α β : Type} (g : α → Option β) :
    ∀ (vs1 : List α) (v : α) (vs2 : List α) (el : β),
      (∀ x ∈ vs1, g x = none) → g v = some el →
      ((vs1 ++ v :: vs2).findSome? g) = some el := by
  intro vs1
  induction vs1 with
  | nil =>
    intro v vs2 el _ hv
    rw [List.nil_append, List.findSome?_cons, hv]
  | cons w t ih =>
    intro v vs2 el h hv
    rw [List.cons_append, List.findSome?_cons, h w (by simp)]
    exact ih v vs2 el (fun x hx => h x (by simp [hx])) hv

/-- Claim C2 (confirmed): in the per-field cleaning step of `full_clean` on a
bound form (that does not take the empty-permitted short-circuit), every
non-disabled field is attempted, and every failure recorded during the pass —
regardless of any other field's failure — appears under its field name in the
final error accumulator, all raised together as one aggregate error. -/
theorem c2_field_errors_collected {V E : Type} (f : FormM V E)
    (hb : f.is_bound = true)
    (hs : (f.empty_permitted && !hasChangedM f) = false)
    (hn : (keysOf f.fields).Nodup) :
    (∀ n fs, (n, fs) ∈ f.fields → fs.disabled = false →
      ∃ r, (n, r) ∈ (cleanFieldsTrace f).2) ∧
    (projErrs (cleanFieldsTrace f).2 ≠ [] →
      (fullClean f initState).errors = some (projErrs (cleanFieldsTrace f).2)) ∧
    (∀ n el, (n, FOutcome.fail el) ∈ (cleanFieldsTrace f).2 →
      alookup ((fullClean f initState).errors.getD []) n = some el) := by
  have hkeys : (keysOf (projErrs (cleanFieldsTrace f).2)).Nodup := trace_keys_nodup f hn
  have herrs : projErrs (cleanFieldsTrace f).2 ≠ [] →
      (fullClean f initState).errors = some (projErrs (cleanFieldsTrace f).2) := by
    intro hne
    rw [fullClean_run f initState hb hs]
    unfold cleanStages
    rw [cleanFieldsFold_eq_trace f]
    cases hp : projErrs (cleanFieldsTrace f).2 with
    | nil => exact absurd hp hne
    | cons e es =>
      dsimp only
      rw [addError_edict_eq]
      have hfold : (e :: es).foldl (fun es p => appendErrs es p.1 p.2)
          ([] : List (String × List E)) = [] ++ (e :: es) := by
        apply foldAppend_fresh (e :: es) [] (hp ▸ hkeys)
        intro k _
        rfl
      simp only [Option.map_some']
      rw [hfold]
      rfl
  refine ⟨fun n fs hm hnd => traceGo_attempted f f.fields [] [] n fs hm hnd, herrs, ?_⟩
  intro n el hmem
  have hpe : (n, el) ∈ projErrs (cleanFieldsTrace f).2 :=
    List.mem_filterMap.mpr ⟨(n, FOutcome.fail el), hmem, rfl⟩
  have hne : projErrs (cleanFieldsTrace f).2 ≠ [] := by
    intro h
    rw [h] at hpe
    simp at hpe
  rw [herrs hne]
  exact alookup_of_mem_nodup hkeys hpe

/-- Witness for C2: on a bound two-field form whose fields both fail, the
second field's error is present in the final accumulator even though the
first field already failed. -/
theorem c2_field_errors_collected_witness :
    alookup ((fullClean exFormFields initState).errors.getD []) "b" = some ["reqB"] :=
  (c2_field_errors_collected exFormFields rfl rfl (by decide)).2.2 "b" ["reqB"] (by decide)

/-- Claim C3, counterexample as stated: on a bound fieldless form with two
configured validators that both fail (with `e1` and `e2`), `full_clean`
records only the first failure — the second validator is never invoked, so
`e2` appears nowhere in the accumulator, contradicting "every configured
validator is invoked ... each validator failure adds a non-field-scoped
error". -/
theorem c3_validators_counterexample :
    (fullClean exFormValidators initState).errors =
      some [(NON_FIELD_ERRORS, ["e1"])] ∧
    ∀ l, (fullClean exFormValidators initState).errors = some l →
      ¬ ∃ k el, (k, el) ∈ l ∧ ("e2" : String) ∈ el := by
  constructor
  · rfl
  · intro l hl
    have h1 : (fullClean exFormValidators initState).errors =
        some [(NON_FIELD_ERRORS, ["e1"])] := rfl
    rw [hl] at h1
    have h2 : l = [(NON_FIELD_ERRORS, ["e1"])] := Option.some.inj h1
    subst h2
    rintro ⟨k, el, hmem, he⟩
    have h3 : el = ["e1"] := by
      rcases List.mem_singleton.mp hmem with h
      exact congrArg Prod.snd h
    rw [h3] at he
    rcases List.mem_singleton.mp he with h4
    exact absurd h4 (by decide)

/-- Claim C3 (amended): in the cross-field validator step of `full_clean`,
the configured validators are invoked in order against the current cleaned
data only until the first failure: the first failing validator's error is
added as the sole non-field-scoped error and the step aborts, so validators
after the failing one are not invoked and add nothing, whatever they are;
when every validator passes, the accumulator stays empty. -/
theorem c3_validators_amended {V E : Type} (f : FormM V E)
    (hb : f.is_bound = true)
    (hs : (f.empty_permitted && !hasChangedM f) = false)
    (hf : (cleanFieldsFold f).2 = [])
    (hform : formStage f (cleanFieldsFold f).1 (⟨some [], some []⟩ : FormState V E) =
      ⟨some [], some (cleanFieldsFold f).1⟩) :
    (∀ vs1 v vs2 el, f.validators = vs1 ++ v :: vs2 →
      (∀ v' ∈ vs1, v' (cleanFieldsFold f).1 = none) →
      v (cleanFieldsFold f).1 = some el →
      (fullClean f initState).errors = some [(NON_FIELD_ERRORS, el)]) ∧
    ((∀ v' ∈ f.validators, v' (cleanFieldsFold f).1 = none) →
      (fullClean f initState).errors = some []) := by
  have hrun : fullClean f initState =
      validatorStage f ⟨some [], some (cleanFieldsFold f).1⟩ := by
    rw [fullClean_run f initState hb hs]
    unfold cleanStages
    rw [show cleanFieldsFold f = ((cleanFieldsFold f).1, (cleanFieldsFold f).2) from rfl, hf]
    exact congrArg (validatorStage f) hform
  constructor
  · intro vs1 v vs2 el hvs hnone hfail
    rw [hrun]
    unfold validatorStage
    rw [hvs, findSome?_first_fail _ vs1 v vs2 el
      (by intro x hx; simpa using hnone x hx) (by simpa using hfail)]
    dsimp only
    rw [addError_elist_eq]
    rfl
  · intro hall
    rw [hrun]
    unfold validatorStage
    rw [findSome?_all_none _ f.validators (by intro x hx; simpa using hall x hx)]

/-- Witness for C3: on the two-failing-validator form, the amended theorem
applied with the split `[] ++ v1 :: [v2]` yields exactly the first
validator's error. -/
theorem c3_validators_amended_witness :
    (fullClean exFormValidators initState).errors =
      some [(NON_FIELD_ERRORS, ["e1"])] :=
  (c3_validators_amended exFormValidators rfl rfl rfl rfl).1
    [] (fun _ => some ["e1"]) [fun _ => some ["e2"]] ["e1"]
    rfl (by intro v' hv'; simp at hv') rfl

/-- Claim C4 (confirmed): on a bound form, any sequence of accesses to
`errors` / `cleaned_data` starting from the fresh state runs `full_clean`
exactly once (zero times only for the empty sequence), leaves the state at
the cached `full_clean` result, and every access returns the value read off
that one cached result. -/
theorem c4_lazy_idempotent {V E : Type} (f : FormM V E)
    (hb : f.is_bound = true) (accs : List Access) :
    (runAccesses f accs initState).2.1 = (if accs.isEmpty then 0 else 1) ∧
    (runAccesses f accs initState).1 =
      (if accs.isEmpty then initState else fullClean f initState) ∧
    (runAccesses f accs initState).2.2 =
      accs.map (readOut (fullClean f initState)) := by
  cases accs with
  | nil => exact ⟨rfl, rfl, rfl⟩
  | cons a rest =>
    have hc := fullClean_complete f initState hb
    have hstable := runAccesses_stable f rest (fullClean f initState) hc.1 hc.2
    cases a with
    | errs =>
      simp only [runAccesses, doAccess, show (initState : FormState V E).errors.isNone = true
        from rfl, if_true, hstable]
      exact ⟨rfl, rfl, rfl⟩
    | cdata =>
      simp only [runAccesses, doAccess, show (initState : FormState V E).cleaned.isNone = true
        from rfl, if_true, hstable]
      exact ⟨rfl, rfl, rfl⟩

/-- Witness for C4: three successive accesses on a concrete bound form clean
exactly once and return the cached values. -/
theorem c4_lazy_idempotent_witness :
    (runAccesses exFormOk [Access.errs, Access.cdata, Access.errs] initState).2.1 =
      (if ([Access.errs, Access.cdata, Access.errs] : List Access).isEmpty then 0 else 1) ∧
    (runAccesses exFormOk [Access.errs, Access.cdata, Access.errs] initState).1 =
      (if ([Access.errs, Access.cdata, Access.errs] : List Access).isEmpty then initState
       else fullClean exFormOk initState) ∧
    (runAccesses exFormOk [Access.errs, Access.cdata, Access.errs] initState).2.2 =
      [Access.errs, Access.cdata, Access.errs].map (readOut (fullClean exFormOk initState)) :=
  c4_lazy_idempotent exFormOk rfl [Access.errs, Access.cdata, Access.errs]

/-! ## C5-C7, C10: lemmas and theorems about the uniqueness validators -/

theorem isEmpty_false_of_mem {α : Type} {l : List α} {x : α} (h : x ∈ l) :
    l.isEmpty = false := by
  cases hl : l.isEmpty with
  | false => rfl
  | true => exact absurd (List.isEmpty_iff.mp hl ▸ h) (by simp)

/-- Claim C5 (confirmed): over a queryset containing a row whose target field
equals the candidate value, `UniqueValidator` run for a new instance raises
the `unique` error referencing the field name, while run for an update of
that same row (every matching row carrying that row's primary key) succeeds,
the instance's primary key being excluded before the existence check. -/
theorem c5_unique_validator (qs : List Row) (fname pkName : String) (row : Row)
    (value : Val) (hrow : row ∈ qs) (hval : getAttr row fname = value) :
    uniqueValidatorCall ⟨qs, fname, pkName, none⟩ value =
      .ok (some ⟨("unique"), fname⟩) ∧
    ((∀ r ∈ qs, getAttr r fname = value → getAttr r pkName = getAttr row pkName) →
      uniqueValidatorCall ⟨qs, fname, pkName, some row⟩ value = .ok none) := by
  have hmem : row ∈ ormFilterExact qs fname value :=
    List.mem_filter.mpr ⟨hrow, decide_eq_true hval⟩
  constructor
  · have hie : (ormFilterExact qs fname value).isEmpty = false := isEmpty_false_of_mem hmem
    unfold uniqueValidatorCall uniqueCallGen qs_filterM excludeByPk qs_existsM ormExists
    dsimp only
    rw [hie]
    rfl
  · intro hpk
    have hnil : excludeByPk (some row) pkName (ormFilterExact qs fname value) = [] := by
      unfold excludeByPk
      dsimp only
      rw [List.filter_eq_nil_iff]
      intro a ha
      obtain ⟨haq, hav⟩ := List.mem_filter.mp ha
      have : getAttr a pkName = getAttr row pkName := hpk a haq (of_decide_eq_true hav)
      simp [this]
    unfold uniqueValidatorCall uniqueCallGen qs_filterM qs_existsM ormExists
    dsimp only
    rw [hnil]
    rfl

/-- Witness for C5: one row with `x = 5` and primary key `id = 1`. -/
theorem c5_unique_validator_witness :
    uniqueValidatorCall
        ⟨[⟨[("id", some 1), ("x", some 5)]⟩], "x", "id", none⟩ (some 5) =
      .ok (some ⟨("unique"), "x"⟩) ∧
    uniqueValidatorCall
        ⟨[⟨[("id", some 1), ("x", some 5)]⟩], "x", "id",
          some ⟨[("id", some 1), ("x", some 5)]⟩⟩ (some 5) = .ok none := by
  have h := c5_unique_validator [⟨[("id", some 1), ("x", some 5)]⟩] "x" "id"
    ⟨[("id", some 1), ("x", some 5)]⟩ (some 5) (by simp) (by decide)
  exact ⟨h.1, h.2 (by decide)⟩

/-- Claim C6 (confirmed): a `TypeError`, `ValueError` or `DataError` raised
by the external filter construction or the existence check is swallowed:
`qs_filter` falls back to the no-match queryset, `qs_exists` reports
`False`, and `UniqueValidator.__call__` completes with no uniqueness
violation and no propagated exception, whichever of the two calls raised. -/
theorem c6_query_errors_swallowed (e : PyExn) (hc : caughtExn e = true) :
    qs_filterM (.error e) = .ok [] ∧
    qs_existsM (.error e) = .ok false ∧
    (∀ fname pkName inst,
      uniqueCallGen fname pkName inst (.error e) ormExists = .ok none) ∧
    (∀ fname pkName inst (qs : List Row),
      uniqueCallGen fname pkName inst (.ok qs) (fun _ => .error e) = .ok none) := by
  refine ⟨by simp [qs_filterM, hc], by simp [qs_existsM, hc], ?_, ?_⟩
  · intro fname pkName inst
    cases inst <;>
      simp [uniqueCallGen, qs_filterM, hc, excludeByPk, qs_existsM, ormExists]
  · intro fname pkName inst qs
    unfold uniqueCallGen qs_filterM qs_existsM
    dsimp only
    rw [hc]
    rfl

/-- Witness for C6: the three caught exception kinds all yield "no match"
through the validator. -/
theorem c6_query_errors_swallowed_witness :
    qs_filterM (.error PyExn.typeError) = .ok [] ∧
    uniqueCallGen "x" "id" none (.error PyExn.valueError) ormExists = .ok none ∧
    uniqueCallGen "x" "id" none (.ok [⟨[("x", some 5)]⟩])
      (fun _ => .error PyExn.dataError) = .ok none :=
  ⟨(c6_query_errors_swallowed PyExn.typeError rfl).1,
   (c6_query_errors_swallowed PyExn.valueError rfl).2.2.1 "x" "id" none,
   (c6_query_errors_swallowed PyExn.dataError rfl).2.2.2 "x" "id" none
     [⟨[("x", some 5)]⟩]⟩

theorem fill_hasKey_mono (r : Row) :
    ∀ (fields : List String) (ps : List (String × Val)) (g : String),
      hasKey ps g = true →
      hasKey (fields.foldl
        (fun ps f => if hasKey ps f then ps else ps ++ [(f, getAttr r f)]) ps) g = true := by
  intro fields
  induction fields with
  | nil => intro ps g h; exact h
  | cons f rest ih =>
    intro ps g h
    rw [List.foldl_cons]
    by_cases hf : hasKey ps f = true
    · rw [if_pos hf]
      exact ih ps g h
    · rw [if_neg hf]
      exact ih _ g (by rw [hasKey_append, h]; rfl)

theorem fill_adds (r : Row) :
    ∀ (fields : List String) (ps : List (String × Val)) (g : String), g ∈ fields →
      hasKey (fields.foldl
        (fun ps f => if hasKey ps f then ps else ps ++ [(f, getAttr r f)]) ps) g = true := by
  intro fields
  induction fields with
  | nil => intro ps g h; simp at h
  | cons f rest ih =>
    intro ps g hg
    rw [List.foldl_cons]
    rcases List.mem_cons.mp hg with h | h
    · subst h
      by_cases hf : hasKey ps g = true
      · rw [if_pos hf]
        exact fill_hasKey_mono r rest ps g hf
      · rw [if_neg hf]
        apply fill_hasKey_mono r rest _ g
        rw [hasKey_append]
        have : hasKey [(g, getAttr r g)] g = true := by
          rw [hasKey_iff]
          simp [keysOf]
        rw [this]
        simp
    · by_cases hf : hasKey ps f = true
      · rw [if_pos hf]
        exact ih ps g h
      · rw [if_neg hf]
        exact ih _ g h

theorem fill_alookup_preserve (r : Row) :
    ∀ (fields : List String) (ps : List (String × Val)) (g : String),
      hasKey ps g = true →
      alookup (fields.foldl
        (fun ps f => if hasKey ps f then ps else ps ++ [(f, getAttr r f)]) ps) g =
        alookup ps g := by
  intro fields
  induction fields with
  | nil => intro ps g _; rfl
  | cons f rest ih =>
    intro ps g h
    rw [List.foldl_cons]
    by_cases hf : hasKey ps f = true
    · rw [if_pos hf]
      exact ih ps g h
    · rw [if_neg hf]
      have hlk : alookup (ps ++ [(f, getAttr r f)]) g = alookup ps g := by
        rw [alookup_append]
        cases hl : alookup ps g with
        | some v => rfl
        | none =>
          exact absurd ((hasKey_iff ps g).mp h) (alookup_eq_none_iff ps g |>.mp hl)
      rw [ih _ g (by rw [hasKey_append, h]; rfl), hlk]

theorem fill_alookup_new (r : Row) :
    ∀ (fields : List String) (ps : List (String × Val)) (g : String),
      hasKey ps g = false → g ∈ fields →
      alookup (fields.foldl
        (fun ps f => if hasKey ps f then ps else ps ++ [(f, getAttr r f)]) ps) g =
        some (getAttr r g) := by
  intro fields
  induction fields with
  | nil => intro ps g _ h; simp at h
  | cons f rest ih =>
    intro ps g hk hg
    rw [List.foldl_cons]
    rcases List.mem_cons.mp hg with h | h
    · subst h
      rw [if_neg (by rw [hk]; simp)]
      have hlk : alookup (ps ++ [(g, getAttr r g)]) g = some (getAttr r g) := by
        rw [alookup_append]
        rw [show alookup ps g = none from (alookup_eq_none_iff ps g).mpr
          (fun hm => by rw [(hasKey_iff ps g).mpr hm] at hk; exact absurd hk (by simp))]
        simp [alookup]
      rw [fill_alookup_preserve r rest _ g
        (by rw [hasKey_append]; rw [show hasKey [(g, getAttr r g)] g = true from by
          rw [hasKey_iff]; simp [keysOf]]; simp), hlk]
    · by_cases hf : hasKey ps f = true
      · rw [if_pos hf]
        exact ih ps g hk h
      · by_cases hfg : f = g
        · subst hfg
          rw [if_neg (by rw [hk]; simp)]
          have hlk : alookup (ps ++ [(f, getAttr r f)]) f = some (getAttr r f) := by
            rw [alookup_append]
            rw [show alookup ps f = none from (alookup_eq_none_iff ps f).mpr
              (fun hm => by rw [(hasKey_iff ps f).mpr hm] at hk; exact absurd hk (by simp))]
            simp [alookup]
          rw [fill_alookup_preserve r rest _ f
            (by rw [hasKey_append]; rw [show hasKey [(f, getAttr r f)] f = true from by
              rw [hasKey_iff]; simp [keysOf]]; simp), hlk]
        · rw [if_neg hf]
          apply ih _ g ?_ h
          rw [hasKey_append, hk]
          rw [show hasKey [(f, getAttr r f)] g = false from by
            rw [hasKey_eq_false_iff]
            simp [keysOf]
            exact fun h => hfg h.symm]
          rfl

theorem utCallGen_snd (fields : List String) (pkName : String) (inst : Option Row)
    (params : List (String × Val))
    (fa : List (String × Val) → Except PyExn (List Row))
    (ea : List Row → Except PyExn Bool)
    (henf : enforceRequired inst fields params = none) :
    (utCallGen fields pkName inst params fa ea).2 = fillFromInstance inst fields params := by
  unfold utCallGen
  rw [henf]
  dsimp only
  cases hq : qs_filterM (fa (constrainedKwargs fields (fillFromInstance inst fields params))) with
  | error e => rfl
  | ok q1 =>
    dsimp only
    by_cases hm : memB ((fillFromInstance inst fields params).filterMap
        (fun p => if memB fields p.1 then some p.2 else none)) none = true
    · rw [if_pos hm]
    · rw [if_neg hm]
      cases he : qs_existsM (ea (excludeByPk inst pkName q1)) with
      | error e => rfl
      | ok b => cases b <;> rfl

/-- Claim C7 (confirmed): `UniqueTogetherValidator` in create mode fails
immediately with a `required` error listing exactly the missing constrained
fields — for any behaviour of the query layer, i.e. without issuing any
query — whenever a constrained field is absent; and when every constrained
field is present but some constrained value is null, the call reports no
uniqueness violation whatever the queryset contains. -/
theorem c7_unique_together_create (fields : List String) (pkName : String)
    (params : List (String × Val)) :
    (∀ (fa : List (String × Val) → Except PyExn (List Row))
       (ea : List Row → Except PyExn Bool),
      missingFields fields params ≠ [] →
      (utCallGen fields pkName none params fa ea).1 =
        .ok (some (.required
          ((missingFields fields params).map (fun g => (g, missingMessage))))) ∧
      ∀ g ∈ fields, hasKey params g = false →
        (g, missingMessage) ∈
          (missingFields fields params).map (fun g => (g, missingMessage))) ∧
    (missingFields fields params = [] →
      ∀ (qs : List Row) (g : String), (g, (none : Option Int)) ∈ params → g ∈ fields →
      (uniqueTogetherCall ⟨qs, fields, pkName, none⟩ params).1 = .ok none) := by
  constructor
  · intro fa ea hne
    have henf : enforceRequired none fields params =
        some ((missingFields fields params).map (fun g => (g, missingMessage))) := by
      unfold enforceRequired
      cases hm : missingFields fields params with
      | nil => exact absurd hm hne
      | cons m ms => rfl
    constructor
    · unfold utCallGen
      rw [henf]
    · intro g hg hk
      have : g ∈ missingFields fields params :=
        List.mem_filter.mpr ⟨hg, by rw [hk]; rfl⟩
      exact List.mem_map.mpr ⟨g, this, rfl⟩
  · intro hm0 qs g hmem hgf
    have henf : enforceRequired none fields params = none := by
      unfold enforceRequired
      rw [hm0]
    have hchk : memB (params.filterMap
        (fun p => if memB fields p.1 then some p.2 else none)) (none : Val) = true := by
      rw [memB_iff]
      exact List.mem_filterMap.mpr ⟨(g, none), hmem, by
        rw [if_pos (by rw [(memB_iff fields g)]; exact hgf)]⟩
    unfold uniqueTogetherCall utCallGen
    rw [henf]
    dsimp only
    rw [show fillFromInstance none fields params = params from rfl]
    unfold qs_filterM
    dsimp only
    rw [if_pos hchk]

/-- Witness for C7: constrained fields `(a, b)` against a matching row — a
create request missing `b` fails with `required` for `b`; a create request
with `b` null passes though the row matches on `a`. -/
theorem c7_unique_together_create_witness :
    (utCallGen ["a", "b"] "id" none [("a", some 1)]
        (fun _ => .error PyExn.otherError) (fun _ => .error PyExn.otherError)).1 =
      .ok (some (.required [("b", missingMessage)])) ∧
    (uniqueTogetherCall
        ⟨[⟨[("id", some 1), ("a", some 1), ("b", some 2)]⟩], ["a", "b"], "id", none⟩
        [("a", some 1), ("b", none)]).1 = .ok none :=
  ⟨((c7_unique_together_create ["a", "b"] "id" [("a", some 1)]).1
      (fun _ => .error PyExn.otherError) (fun _ => .error PyExn.otherError)
      (by decide)).1,
   (c7_unique_together_create ["a", "b"] "id" [("a", some 1), ("b", none)]).2
      (by decide) [⟨[("id", some 1), ("a", some 1), ("b", some 2)]⟩] "b"
      (by simp) (by simp)⟩

/-- Claim C10 (confirmed): `UniqueTogetherValidator` in update mode writes
the existing instance's values for the missing constrained fields into the
caller-supplied parameter mapping before filtering: whatever the query layer
does, the mapping the call leaves behind is the filled one, it has an entry
for every constrained field, each previously missing constrained field now
maps to the instance's value, and when some constrained field was missing it
differs from the original mapping. -/
theorem c10_update_mutates_params (fields : List String) (pkName : String) (r : Row)
    (params : List (String × Val))
    (fa : List (String × Val) → Except PyExn (List Row))
    (ea : List Row → Except PyExn Bool) :
    (utCallGen fields pkName (some r) params fa ea).2 =
      fillFromInstance (some r) fields params ∧
    (∀ g ∈ fields, hasKey (fillFromInstance (some r) fields params) g = true) ∧
    (∀ g ∈ fields, hasKey params g = false →
      alookup (fillFromInstance (some r) fields params) g = some (getAttr r g)) ∧
    (missingFields fields params ≠ [] →
      fillFromInstance (some r) fields params ≠ params) := by
  refine ⟨utCallGen_snd fields pkName (some r) params fa ea rfl, ?_, ?_, ?_⟩
  · intro g hg
    exact fill_adds r fields params g hg
  · intro g hg hk
    exact fill_alookup_new r fields params g hk hg
  · intro hne heq
    cases hm : missingFields fields params with
    | nil => exact absurd hm hne
    | cons m ms =>
      have hmem : m ∈ missingFields fields params := by rw [hm]; simp
      obtain ⟨hmf, hmk⟩ := List.mem_filter.mp hmem
      have h1 : hasKey (fillFromInstance (some r) fields params) m = true :=
        fill_adds r fields params m hmf
      rw [heq] at h1
      rw [show hasKey params m = false from by
        cases hx : hasKey params m with
        | false => rfl
        | true => rw [hx] at hmk; exact absurd hmk (by simp)] at h1
      exact absurd h1 (by simp)

/-- Witness for C10: updating the row `(id 1, a 1, b 2)` with only `a`
submitted leaves the mapping filled with `b ↦ 2`. -/
theorem c10_update_mutates_params_witness :
    (utCallGen ["a", "b"] "id" (some ⟨[("id", some 1), ("a", some 1), ("b", some 2)]⟩)
        [("a", some 1)] (fun kw => .ok (ormFilterAnd [] kw)) ormExists).2 =
      fillFromInstance (some ⟨[("id", some 1), ("a", some 1), ("b", some 2)]⟩)
        ["a", "b"] [("a", some 1)] ∧
    alookup (fillFromInstance (some ⟨[("id", some 1), ("a", some 1), ("b", some 2)]⟩)
        ["a", "b"] [("a", some 1)]) "b" = some (some 2) := by
  have h := c10_update_mutates_params ["a", "b"] "id"
    ⟨[("id", some 1), ("a", some 1), ("b", some 2)]⟩ [("a", some 1)]
    (fun kw => .ok (ormFilterAnd [] kw)) ormExists
  exact ⟨h.1, by
    have h2 := h.2.2.1 "b" (by simp) (by decide)
    rw [h2]
    rfl⟩

/-! ## C8, C9: lemmas and theorems about the filter backends -/

theorem mapMExcept_ok_cons_ne_nil {α β ε : Type} {g : α → Except ε β} {fs : List α}
    {x : β} {xs : List β} (h : mapMExcept g fs = .ok (x :: xs)) : fs ≠ [] := by
  cases fs with
  | nil => simp [mapMExcept] at h
  | cons a t => simp

theorem mapMExcept_first_error {α β ε : Type} (g : α → Except ε β) :
    ∀ (fs1 : List α) (sf : α) (fs2 : List α) (e : ε),
      (∀ x ∈ fs1, ∃ y, g x = .ok y) → g sf = .error e →
      mapMExcept g (fs1 ++ sf :: fs2) = .error e := by
  intro fs1
  induction fs1 with
  | nil =>
    intro sf fs2 e _ hsf
    rw [List.nil_append]
    unfold mapMExcept
    rw [hsf]
  | cons w t ih =>
    intro sf fs2 e h hsf
    obtain ⟨y, hy⟩ := h w (by simp)
    rw [List.cons_append]
    unfold mapMExcept
    rw [hy, ih sf fs2 e (fun x hx => h x (by simp [hx])) hsf]

theorem search_fold_applied (lk : FieldInfo × OpM × Tpl) (lks : List (FieldInfo × OpM × Tpl)) :
    ∀ (terms : List String) (qs : QSym),
      terms.foldl
        (fun q term =>
          match reduceOr (((lk :: lks)).map (toExpr term)) with
          | some p => qsymFilter q p
          | none => q)
        qs =
      { qs with applied := qs.applied ++
          terms.map (fun t => (lks.map (toExpr t)).foldl Pred.orP (toExpr t lk)) } := by
  intro terms
  induction terms with
  | nil =>
    intro qs
    cases qs with
    | mk b j a o => simp
  | cons t ts ih =>
    intro qs
    rw [List.foldl_cons]
    rw [show (match reduceOr ((lk :: lks).map (toExpr t)) with
        | some p => qsymFilter qs p
        | none => qs) =
      qsymFilter qs ((lks.map (toExpr t)).foldl Pred.orP (toExpr t lk)) from rfl]
    rw [ih]
    cases qs with
    | mk b j a o => simp [qsymFilter]

/-- Claim C8 (confirmed): `SearchFilter.filter_queryset` leaves the queryset
unchanged when the configured search fields or the parsed terms are empty;
when every configured field resolves, it applies exactly one filter per
parsed term, each the left-nested OR of the per-field match expressions for
that term (terms thereby ANDed by successive filter applications); and when
some configured field does not resolve in the merged field index, the
configuration error is raised with no filter applied. -/
theorem c8_search_filter (search_fields : List String) (raw : String) (qs : QSym) :
    (search_fields = [] ∨ getSearchTerms raw = [] →
      searchFilterQueryset search_fields raw qs = .ok qs) ∧
    (∀ lk lks, mapMExcept (fun sf => constructSearch (queryModelFields qs) sf)
        search_fields = .ok (lk :: lks) →
      ∀ t0 ts, getSearchTerms raw = t0 :: ts →
      searchFilterQueryset search_fields raw qs =
        .ok { qs with applied := qs.applied ++
          (t0 :: ts).map (fun t => (lks.map (toExpr t)).foldl Pred.orP (toExpr t lk)) }) ∧
    (∀ fs1 sf fs2 e, search_fields = fs1 ++ sf :: fs2 →
      (∀ x ∈ fs1, ∃ y, constructSearch (queryModelFields qs) x = .ok y) →
      constructSearch (queryModelFields qs) sf = .error e →
      getSearchTerms raw ≠ [] →
      searchFilterQueryset search_fields raw qs = .error e) := by
  refine ⟨?_, ?_, ?_⟩
  · intro h
    rcases h with h | h
    · simp [searchFilterQueryset, h]
    · simp [searchFilterQueryset, h]
  · intro lk lks hmap t0 ts hterms
    have hfne : search_fields ≠ [] := mapMExcept_ok_cons_ne_nil hmap
    unfold searchFilterQueryset
    rw [hterms]
    rw [show search_fields.isEmpty = false from by
      cases search_fields with
      | nil => exact absurd rfl hfne
      | cons a t => rfl]
    simp only [List.isEmpty_cons, Bool.or_false, Bool.false_or, Bool.false_eq_true, if_false]
    rw [hmap]
    exact congrArg Except.ok (search_fold_applied lk lks (t0 :: ts) qs)
  · intro fs1 sf fs2 e hsplit hok herr htne
    unfold searchFilterQueryset
    obtain ⟨a, t, hat⟩ : ∃ a t, getSearchTerms raw = a :: t := by
      cases h : getSearchTerms raw with
      | nil => exact absurd h htne
      | cons a t => exact ⟨a, t, rfl⟩
    rw [hat]
    rw [show search_fields.isEmpty = false from by
      rw [hsplit]
      cases fs1 with
      | nil => rfl
      | cons a t => rfl]
    simp only [List.isEmpty_cons, Bool.or_false, Bool.false_or, Bool.false_eq_true, if_false]
    rw [hsplit, mapMExcept_first_error _ fs1 sf fs2 e hok herr]

/-- Witness for C8: fields `{name, =bio}` over a two-field model with search
parameter `"jo,do"`, plus the no-op and the unresolvable-field cases. -/
theorem c8_search_filter_witness :
    searchFilterQueryset [] "jo" ⟨[⟨"name", 1⟩, ⟨"bio", 2⟩], [], [], none⟩ =
      .ok ⟨[⟨"name", 1⟩, ⟨"bio", 2⟩], [], [], none⟩ ∧
    searchFilterQueryset ["name", "=bio"] "jo,do" ⟨[⟨"name", 1⟩, ⟨"bio", 2⟩], [], [], none⟩ =
      .ok ⟨[⟨"name", 1⟩, ⟨"bio", 2⟩], [],
        [Pred.orP (Pred.expr ⟨"name", 1⟩ OpM.ilike ("%jo%")) (Pred.expr ⟨"bio", 2⟩ OpM.eq ("jo")),
         Pred.orP (Pred.expr ⟨"name", 1⟩ OpM.ilike ("%do%")) (Pred.expr ⟨"bio", 2⟩ OpM.eq ("do"))],
        none⟩ ∧
    searchFilterQueryset ["nope"] "jo" ⟨[⟨"name", 1⟩, ⟨"bio", 2⟩], [], [], none⟩ =
      .error ⟨"nope"⟩ := by
  refine ⟨(c8_search_filter [] "jo" _).1 (Or.inl rfl), ?_, ?_⟩
  · rw [(c8_search_filter ["name", "=bio"] "jo,do"
      ⟨[⟨"name", 1⟩, ⟨"bio", 2⟩], [], [], none⟩).2.1
      (⟨"name", 1⟩, OpM.ilike, Tpl.containsT) [(⟨"bio", 2⟩, OpM.eq, Tpl.exactT)]
      (by rfl) "jo" ["do"] (by rfl)]
    rfl
  · exact (c8_search_filter ["nope"] "jo" ⟨[⟨"name", 1⟩, ⟨"bio", 2⟩], [], [], none⟩).2.2
      [] "nope" [] ⟨"nope"⟩ rfl (by intro x hx; simp at hx) (by rfl) (by simp [getSearchTerms, splitTerms])

/-- Claim C9 (confirmed): `OrderingFilter` keeps exactly the requested
entries whose dash-stripped lower-cased name is in the allow-list (invalid
ones silently dropped, no error raised at this stage), falls back to the
view's default ordering when the filter drops everything, and on the request
`["-created_at", "badfield"]` with allow-list `{"created_at"}` applies
exactly the ordering `[created_at descending]`. -/
theorem c9_ordering_filter :
    (∀ (requested valid : List String) (dflt : Option (List String))
       (r : String) (rs : List String), requested = r :: rs →
      (∀ f, f ∈ removeInvalidFields valid requested ↔
        f ∈ requested ∧ memB valid (lowerStr (lstripChar '-' f)) = true) ∧
      (removeInvalidFields valid requested ≠ [] →
        getOrderingM requested valid dflt = some (removeInvalidFields valid requested)) ∧
      (removeInvalidFields valid requested = [] →
        getOrderingM requested valid dflt = dflt)) ∧
    orderingFilterQueryset ["-created_at", "badfield"] ["created_at"] none
        ⟨[⟨"created_at", 0⟩], [], [], none⟩ =
      .ok ⟨[⟨"created_at", 0⟩], [], [], some [(⟨"created_at", 0⟩, true)]⟩ := by
  constructor
  · intro requested valid dflt r rs hreq
    refine ⟨?_, ?_, ?_⟩
    · intro f
      exact List.mem_filter
    · intro hne
      unfold getOrderingM
      rw [hreq]
      dsimp only
      cases hri : removeInvalidFields valid (r :: rs) with
      | nil => exact absurd (by rw [hreq]; exact hri) hne
      | cons a t => rfl
    · intro hnil
      unfold getOrderingM
      rw [hreq]
      dsimp only
      rw [show removeInvalidFields valid (r :: rs) = [] from by rw [← hreq]; exact hnil]
  · rfl

/-- Witness for C9: the drop and fallback equations evaluated on the
concrete request. -/
theorem c9_ordering_filter_witness :
    getOrderingM ["-created_at", "badfield"] ["created_at"] (some ["x"]) =
      some ["-created_at"] ∧
    getOrderingM ["badfield"] ["created_at"] (some ["x"]) = some ["x"] := by
  constructor
  · rw [(c9_ordering_filter.1 ["-created_at", "badfield"] ["created_at"] (some ["x"])
      "-created_at" ["badfield"] rfl).2.1 (by decide)]
    rfl
  · exact (c9_ordering_filter.1 ["badfield"] ["created_at"] (some ["x"])
      "badfield" [] rfl).2.2 (by decide)

end TRF
